import Mathlib

/-!
# tcmu-runner: command-ring dispatcher and device lifecycle

A shallow embedding of `main.c`:

* the ring dispatcher (`handle_one_command`, `poke_kernel`, `handle_device_events`),
* the handler lookup (`find_handler`, with the libc `strtok` it relies on),
* the device lifecycle (`add_device`, `cancel_thread`, `remove_device`).

Shared memory is modelled entry by entry: the mailbox is a record, and the ring is a
map from the address of an entry to the record found there.  Inside an entry the
request and the response share their storage, as in the kernel interface: the entry
holds the 64-bit words of the request, and the members of the response are bytes of
these words.  Entries are separate records: a store that leaves the entry it is made
through (an iov slot beyond the entry's length) is not represented, and the properties
of the iov rewriting are stated for entries that contain their iov array.  Every store
the dispatcher makes to the mapping, every handler call and every write to the
notify-fd is appended to a trace, so that statements about what is written (and how
often) can be made next to statements about the final contents.
-/

namespace Tcmu

/-! ## Data model of the ring -/

/-- One `struct iovec` slot of a command entry. -/
structure iovec where
  iov_base : Nat
  iov_len : Nat
deriving DecidableEq, Repr

/-- Mailbox header `struct tcmu_mailbox` (the four fields `main.c` reads); all of them
are unsigned 32-bit quantities. -/
structure tcmu_mailbox where
  cmdr_off : Nat
  cmdr_size : Nat
  cmd_head : Nat
  cmd_tail : Nat
deriving DecidableEq, Repr

/-- Modelled from the spec: `struct tcmu_cmd_entry_hdr` and its accessors
`tcmu_hdr_get_op` and `tcmu_hdr_get_len` are declared in `target_core_user.h`, which is
not among the sources.  The spec describes the header as carrying an opcode and a
length, so the header is represented by the two values the accessors return. -/
structure tcmu_cmd_entry_hdr where
  op : Nat
  len : Nat
deriving DecidableEq, Repr

/-- Modelled from the spec: accessor of the opcode carried by an entry header. -/
def tcmu_hdr_get_op (hdr : tcmu_cmd_entry_hdr) : Nat := hdr.op

/-- Modelled from the spec: accessor of the length carried by an entry header. -/
def tcmu_hdr_get_len (hdr : tcmu_cmd_entry_hdr) : Nat := hdr.len

/-- Modelled from the spec: opcode of a command entry (`CMD=1`); the enumeration is
declared in `target_core_user.h`. -/
def TCMU_OP_CMD : Nat := 1

/-- The macro `NO_SENSE` of the C library header `scsi/scsi.h`, which `main.c` includes
(a system header, not a file of the repository): `0x00`. -/
def NO_SENSE : Nat := 0x00

/-- The macro `CHECK_CONDITION` of the C library header `scsi/scsi.h`, which `main.c`
includes (a system header, not a file of the repository): `0x01`.  This is the status
code in the header's own numbering; the SCSI status byte for CHECK CONDITION, which
the spec names, is `0x02`. -/
def CHECK_CONDITION : Nat := 0x01

/-- The constant `INT_MAX` of a 32-bit `int`. -/
def INT_MAX : Nat := 2 ^ 31 - 1

/-- Byte `k` of a word, byte 0 being the least significant one (the machine is
little-endian). -/
def get_byte (x k : Nat) : Nat := x / 256 ^ k % 256

/-- The word `x` after a store of the `char` value `v` into its byte `k`. -/
def set_byte (x k v : Nat) : Nat := x - get_byte x k * 256 ^ k + (v % 256) * 256 ^ k

/-- Request part `ent->req` of a command entry, three 64-bit members: `iov` is the array
that starts at `ent->req.iov`, seen as the slots that follow in memory. -/
structure tcmu_req where
  cdb_off : Nat
  iov_cnt : Nat
  iov : Nat → iovec

/-- Response part `ent->rsp` of a command entry, as read from the entry. -/
structure tcmu_rsp where
  scsi_status : Nat
  sense_buffer : Nat → Nat

/-- Modelled from the spec: `struct tcmu_cmd_entry` is declared in
`target_core_user.h` of the kernel tree, which is not among the sources.  The spec names
the members and says that the request and the response share storage; the offsets are
those of the declaration `main.c` was written against, the one with the members
`req.cdb_off`, `req.iov_cnt`, `req.iov` and a header read through
`tcmu_hdr_get_op(&ent->hdr)`.  After 8 bytes of header (`hdr.len_op`, `cmd_id`, padding)
the entry holds a union: the request is `cdb_off` (8 bytes), `iov_cnt` (8 bytes) and the
slots of `iov` (16 bytes each: `iov_base`, `iov_len`); the response is `scsi_status`
(the first byte of the union), 7 bytes of padding, and `sense_buffer` from byte 8 of the
union on.  The record keeps the words of the request; `tcmu_cmd_entry.rsp` reads the
response out of them. -/
structure tcmu_cmd_entry where
  hdr : tcmu_cmd_entry_hdr
  req : tcmu_req

/-- Byte `j` of `sense_buffer`, which lies at byte `8 + j` of the union: a byte of
`iov_cnt` for `j < 8`, then a byte of the `iov_base` or of the `iov_len` of a slot. -/
def tcmu_req.sense_byte (r : tcmu_req) (j : Nat) : Nat :=
  if j < 8 then get_byte r.iov_cnt j
  else if (j - 8) % 16 < 8 then get_byte (r.iov ((j - 8) / 16)).iov_base ((j - 8) % 16)
  else get_byte (r.iov ((j - 8) / 16)).iov_len ((j - 8) % 16 - 8)

/-- The request words after a store of `v` into byte `j` of `sense_buffer`. -/
def tcmu_req.set_sense_byte (r : tcmu_req) (j v : Nat) : tcmu_req :=
  if j < 8 then { r with iov_cnt := set_byte r.iov_cnt j v }
  else if (j - 8) % 16 < 8 then
    { r with
      iov := Function.update r.iov ((j - 8) / 16)
        { iov_base := set_byte (r.iov ((j - 8) / 16)).iov_base ((j - 8) % 16) v,
          iov_len := (r.iov ((j - 8) / 16)).iov_len } }
  else
    { r with
      iov := Function.update r.iov ((j - 8) / 16)
        { iov_base := (r.iov ((j - 8) / 16)).iov_base,
          iov_len := set_byte (r.iov ((j - 8) / 16)).iov_len ((j - 8) % 16 - 8) v } }

/-- The response `ent->rsp` of an entry: `scsi_status` is the first byte of the union,
that is byte 0 of `cdb_off`, and `sense_buffer` starts at byte 8 of the union. -/
def tcmu_cmd_entry.rsp (e : tcmu_cmd_entry) : tcmu_rsp :=
  { scsi_status := get_byte e.req.cdb_off 0,
    sense_buffer := fun j => e.req.sense_byte j }

/-- Effects of the dispatcher that are visible outside of it, in program order:
stores into the shared mapping, calls of the handler, writes to the notify-fd.
In `cmd_submit`, `ent` names the entry whose `req.iov` array is passed and `iov` is the
content of that array at the time of the call. -/
inductive Event where
  | store_iov_base (ent i v : Nat)
  | cmd_submit (ent cdb : Nat) (iov : Nat → iovec) (ret : Int)
  | store_scsi_status (ent v : Nat)
  | store_sense (ent i v : Nat)
  | store_cmd_tail (v : Nat)
  | write (fd : Int) (buf count : Nat)

/-- Data members of `struct tcmu_device` used by `main.c` (every member but the
handler pointer); `name` and `cfgstring` are character buffers. -/
structure tcmu_device_info where
  name : List Char
  cfgstring : List Char
  fd : Int
  map : Nat
  map_len : Nat
deriving DecidableEq, Repr

/-- Handler descriptor `struct tcmu_handler`.  The callbacks are external code: `σ` is
whatever state the handler keeps between calls, `cmd_submit` returns the C `int`
together with the next handler state. The handler is assumed not to store into the
mailbox or into ring entries. -/
structure tcmu_handler (σ : Type) where
  name : List Char
  subtype : List Char
  «open» : tcmu_device_info → Int
  cmd_submit : σ → tcmu_device_info → Nat → (Nat → iovec) → Int × σ

/-- Device record `struct tcmu_device`: the data members and the handler. -/
structure tcmu_device (σ : Type) extends tcmu_device_info where
  handler : tcmu_handler σ

/-- The shared mapping as the dispatcher sees it, the handler state, and the trace of
effects so far.  `ents a` is the entry found at address `a`. -/
structure World (σ : Type) where
  mb : tcmu_mailbox
  ents : Nat → tcmu_cmd_entry
  hm_private : σ
  trace : List Event

variable {σ : Type}

/-! ## Stores into the mapping -/

/-- The store `ent->req.iov[i].iov_base = v`.  Slot `i` of the array lies at the bytes
`24 + 16 * i` to `24 + 16 * i + 15` of the entry; the record of an entry keeps the slots
of its own array, so the store is the one the code does when the slot lies inside the
entry (`24 + 16 * i + 16 ≤ len`).  A slot beyond the length of the entry would lie in
the storage of the entries that follow, which the record of this entry does not
represent: the properties of the iov rewriting are stated for entries that hold their
iov array. -/
def World.store_iov_base (w : World σ) (ent i v : Nat) : World σ :=
  { w with
    ents := Function.update w.ents ent
      { w.ents ent with
        req := { (w.ents ent).req with
          iov := Function.update (w.ents ent).req.iov i
            { ((w.ents ent).req.iov i) with iov_base := v } } }
    trace := w.trace ++ [Event.store_iov_base ent i v] }

/-- The store `ent->rsp.scsi_status = v`, into the first byte of the union. -/
def World.store_scsi_status (w : World σ) (ent v : Nat) : World σ :=
  { w with
    ents := Function.update w.ents ent
      { w.ents ent with
        req := { (w.ents ent).req with cdb_off := set_byte (w.ents ent).req.cdb_off 0 v } }
    trace := w.trace ++ [Event.store_scsi_status ent v] }

/-- The store `ent->rsp.sense_buffer[i] = v`. -/
def World.store_sense (w : World σ) (ent i v : Nat) : World σ :=
  { w with
    ents := Function.update w.ents ent
      { w.ents ent with req := (w.ents ent).req.set_sense_byte i v }
    trace := w.trace ++ [Event.store_sense ent i v] }

/-- The store `mb->cmd_tail = v`. -/
def World.store_cmd_tail (w : World σ) (v : Nat) : World σ :=
  { w with
    mb := { w.mb with cmd_tail := v }
    trace := w.trace ++ [Event.store_cmd_tail v] }

/-! ## The dispatcher -/

/-- The loop `for (i = 0; i < ent->req.iov_cnt; i++) ent->req.iov[i].iov_base = mb + ...`
of `handle_one_command`, started at index `i`; the first argument bounds the number of
iterations (the caller passes `iov_cnt`, which the loop does not change).  The sum
`(void *) mb + (size_t) iov_base` is a 64-bit pointer addition.  The index is a C `int`
compared with the 64-bit `iov_cnt`: after `i = INT_MAX` the increment overflows the
`int`, which C leaves undefined, and the loop is ended there (with a wrapping increment
the index converts to `2^64 - 2^31` in the comparison, above the `iov_cnt` of every
entry that holds its iov array). -/
def iov_loop (mb ent : Nat) : Nat → Nat → World σ → World σ
  | 0, _, w => w
  | fuel + 1, i, w =>
    if i < (w.ents ent).req.iov_cnt then
      if i = INT_MAX then
        w.store_iov_base ent i ((mb + ((w.ents ent).req.iov i).iov_base) % 2 ^ 64)
      else
        iov_loop mb ent fuel (i + 1)
          (w.store_iov_base ent i ((mb + ((w.ents ent).req.iov i).iov_base) % 2 ^ 64))
    else w

/-- Embedding of `handle_one_command(dev, mb, ent)`: returns the handler's return value
and the world after the call.  `cdb = (void *) mb + ent->req.cdb_off` is a 64-bit pointer
addition. -/
def handle_one_command (dev : tcmu_device σ) (mb : Nat) (w : World σ) (ent : Nat) :
    Int × World σ :=
  let cdb := (mb + (w.ents ent).req.cdb_off) % 2 ^ 64
  let w1 := iov_loop mb ent (w.ents ent).req.iov_cnt 0 w
  let iov := (w1.ents ent).req.iov
  let r := dev.handler.cmd_submit w1.hm_private dev.totcmu_device_info cdb iov
  (r.1, { w1 with hm_private := r.2, trace := w1.trace ++ [Event.cmd_submit ent cdb iov r.1] })

/-- Embedding of `poke_kernel(fd)`: `write(fd, &buf, 4)` with `buf = 0xabcdef12`. -/
def poke_kernel (fd : Int) (w : World σ) : World σ :=
  { w with trace := w.trace ++ [Event.write fd 0xabcdef12 4] }

/-- Local variables of `handle_device_events` that live across loop iterations,
together with the world. -/
structure DrainState (σ : Type) where
  w : World σ
  ent : Nat
  did_some_work : Int

/-- The failure branch of `handle_device_events`: CHECK CONDITION and the fixed sense
data, in the order of the source. -/
def World.store_failure (w : World σ) (ent : Nat) : World σ :=
  (((((w.store_scsi_status ent CHECK_CONDITION).store_sense ent 0 0x70).store_sense ent 2 0x5).store_sense
    ent 7 0xa).store_sense ent 12 0x20).store_sense ent 13 0x0

/-- The part of the loop body of `handle_device_events` that handles the entry: the
`if (tcmu_hdr_get_op(&ent->hdr) == TCMU_OP_CMD)` statement. -/
def handle_entry (dev : tcmu_device σ) (w : World σ) (ent : Nat) : World σ :=
  if tcmu_hdr_get_op (w.ents ent).hdr = TCMU_OP_CMD then
    let r := handle_one_command dev dev.map w ent
    if r.1 ≠ 0 then r.2.store_scsi_status ent NO_SENSE
    else r.2.store_failure ent
  else w

/-- The value stored into `mb->cmd_tail`:
`(mb->cmd_tail + tcmu_hdr_get_len(&ent->hdr)) % mb->cmdr_size`, the sum being an unsigned
32-bit addition. -/
def next_tail (cmd_tail len cmdr_size : Nat) : Nat :=
  ((cmd_tail + len) % 2 ^ 32) % cmdr_size

/-- One iteration of the `while` loop of `handle_device_events`. -/
def drain_body (dev : tcmu_device σ) (s : DrainState σ) : DrainState σ :=
  let w1 := handle_entry dev s.w s.ent
  let w2 := w1.store_cmd_tail
    (next_tail w1.mb.cmd_tail (tcmu_hdr_get_len (w1.ents s.ent).hdr) w1.mb.cmdr_size)
  { w := w2, ent := dev.map + w2.mb.cmdr_off + w2.mb.cmd_tail, did_some_work := 1 }

/-- The `while (ent != (void *)mb + mb->cmdr_off + mb->cmd_head)` loop.  The first
argument bounds the number of iterations; the result is `none` when the bound is
reached with entries still pending, and when an iteration divides by `cmdr_size = 0`. -/
def drain_loop (dev : tcmu_device σ) : Nat → DrainState σ → Option (DrainState σ)
  | 0, s =>
    if s.ent ≠ dev.map + s.w.mb.cmdr_off + s.w.mb.cmd_head then none else some s
  | fuel + 1, s =>
    if s.ent ≠ dev.map + s.w.mb.cmdr_off + s.w.mb.cmd_head then
      if s.w.mb.cmdr_size = 0 then none
      else drain_loop dev fuel (drain_body dev s)
    else some s

/-- Embedding of `handle_device_events(dev)` on the world `w`: the return value and the
world after the call, `none` as for `drain_loop`. -/
def handle_device_events (dev : tcmu_device σ) (fuel : Nat) (w : World σ) :
    Option (Int × World σ) :=
  match drain_loop dev fuel
      { w := w, ent := dev.map + w.mb.cmdr_off + w.mb.cmd_tail, did_some_work := 0 } with
  | none => none
  | some s =>
    if s.did_some_work ≠ 0 then some (0, poke_kernel dev.fd s.w) else some (0, s.w)

/-! ## C strings and the libc functions used by `main.c`

A `char *` is modelled by the list of characters found from the pointer on; the string
it denotes ends at the first NUL, and the end of the list stands for a terminator too.
Advancing a pointer by `n` is `List.drop n`. -/

/-- The terminating character. -/
def NUL : Char := Char.ofNat 0

/-- The C string a pointer denotes: the characters before the first NUL. -/
def cstr (s : List Char) : List Char := s.takeWhile (fun c => c ≠ NUL)

/-- Comparison of two strings given by their characters, as `strcmp` does it. -/
def strcmp_chars : List Char → List Char → Int
  | [], [] => 0
  | [], b :: _ => - (b.toNat : Int)
  | a :: _, [] => (a.toNat : Int)
  | a :: as, b :: bs => if a = b then strcmp_chars as bs else (a.toNat : Int) - (b.toNat : Int)

/-- Libc `strcmp(a, b)`. -/
def strcmp (a b : List Char) : Int := strcmp_chars (cstr a) (cstr b)

/-- Libc `strnlen(s, maxlen)`. -/
def strnlen (s : List Char) (maxlen : Nat) : Nat := min (cstr s).length maxlen

/-- Libc `strncmp(a, b, n)`: at most `n` characters are compared and the comparison
stops after a NUL. -/
def strncmp : List Char → List Char → Nat → Int
  | _, _, 0 => 0
  | a, b, n + 1 =>
    let ca := a.head?.getD NUL
    let cb := b.head?.getD NUL
    if ca ≠ cb then (ca.toNat : Int) - (cb.toNat : Int)
    else if ca = NUL then 0
    else strncmp a.tail b.tail n

/-- Libc `strspn(s, accept)`. -/
def strspn (s accept : List Char) : Nat := ((cstr s).takeWhile (fun c => c ∈ accept)).length

/-- Libc `strcspn(s, reject)`. -/
def strcspn (s reject : List Char) : Nat := ((cstr s).takeWhile (fun c => c ∉ reject)).length

/-- Libc `strtok(s, delim)` called with a non-NULL `s`: skips leading delimiters, returns
`none` (NULL) when nothing is left, otherwise the offset of the token inside `s`; the
delimiter that ends the token, if any, is overwritten with NUL.  The second component
is the buffer after the call. -/
def strtok (s delim : List Char) : Option Nat × List Char :=
  let start := strspn s delim
  if cstr (s.drop start) = [] then (none, s)
  else
    let stop := start + strcspn (s.drop start) delim
    if cstr (s.drop stop) = [] then (some start, s)
    else (some start, s.set stop NUL)

/-- Libc `snprintf(buf, size, "%s", s)`: the string left in `buf`. -/
def snprintf_s (size : Nat) (s : List Char) : List Char := (cstr s).take (size - 1)

/-! ## Handler lookup -/

/-- The `darray_foreach` loop of `find_handler`. -/
def find_handler_loop (subtype : List Char) : List (tcmu_handler σ) → Option (tcmu_handler σ)
  | [] => none
  | handler :: rest =>
    if strcmp subtype handler.subtype = 0 then some handler
    else find_handler_loop subtype rest

/-- Embedding of `find_handler(cfgstring)` over the registry `handlers`: the handler
returned (`none` for NULL) and the content of the `cfgstring` buffer after the call. -/
def find_handler (handlers : List (tcmu_handler σ)) (cfgstring : List Char) :
    Option (tcmu_handler σ) × List Char :=
  let r := strtok cfgstring ['/']
  let subtype := match r.1 with
    | some p => r.2.drop p
    | none => r.2
  (find_handler_loop subtype handlers, r.2)

/-! ## Device lifecycle -/

/-- Entry of the live-device table, `struct tcmu_thread`. -/
structure tcmu_thread where
  thread_id : Nat
  dev_name : List Char
deriving DecidableEq, Repr

/-- System-level effects of the lifecycle operations, in program order. -/
inductive SysEvent where
  | handler_open (dev : tcmu_device_info)
  | handler_close (dev : tcmu_device_info)
  | munmap (addr len : Nat)
  | close (fd : Int)
  | pthread_cancel (thread : Nat)
  | pthread_join (thread : Nat)
deriving DecidableEq, Repr

/-- Results of the library and system calls the lifecycle operations make. -/
structure SysEnv where
  calloc_ok : Bool
  open_dev : Int
  open_size : Int
  read_size : Int
  strtoull : Nat
  mmap : Option Nat
  pthread_create : Int × Nat
  pthread_cancel : Nat → Int
  pthread_join : Nat → Int

/-- The constant `ULLONG_MAX`. -/
def ULLONG_MAX : Nat := 2 ^ 64 - 1

/-- Modelled from the spec: `darray_remove(arr, i)` from `darray.h`, which is not among
the sources: the item at index `i` leaves the array, the others keep their order. -/
def darray_remove {α : Type} (arr : List α) (i : Nat) : List α := arr.eraseIdx i

/-- Embedding of `add_device(dev_name, cfgstring)`.  `name_size` and `cfg_size` are the
sizes of the `name` and `cfgstring` members of `struct tcmu_device` (declared in
`tcmu-runner.h`).  Returns the C return value, the live-device table and the effects. -/
def add_device (env : SysEnv) (name_size cfg_size : Nat) (handlers : List (tcmu_handler σ))
    (threads : List tcmu_thread) (dev_name cfgstring : List Char) :
    Int × List tcmu_thread × List SysEvent :=
  if env.calloc_ok = false then (-1, threads, [])
  else
    let name := snprintf_s name_size dev_name
    let thread_dev_name := snprintf_s 16 dev_name
    let cfg := snprintf_s cfg_size (cfgstring.drop 9)
    if env.open_dev = -1 then (-1, threads, [])
    else if env.open_size = -1 then (-1, threads, [SysEvent.close env.open_dev])
    else if env.read_size ≤ 0 then
      (-1, threads, [SysEvent.close env.open_size, SysEvent.close env.open_dev])
    else if env.strtoull = ULLONG_MAX then
      (-1, threads, [SysEvent.close env.open_size, SysEvent.close env.open_dev])
    else
      match env.mmap with
      | none => (-1, threads, [SysEvent.close env.open_size, SysEvent.close env.open_dev])
      | some map =>
        let r := find_handler handlers cfg
        let dev : tcmu_device_info :=
          { name := name, cfgstring := r.2, fd := env.open_dev, map := map,
            map_len := env.strtoull }
        match r.1 with
        | none =>
          (-1, threads, [SysEvent.close env.open_size, SysEvent.munmap map env.strtoull,
            SysEvent.close env.open_dev])
        | some handler =>
          if handler.«open» dev < 0 then
            (-1, threads, [SysEvent.close env.open_size, SysEvent.handler_open dev,
              SysEvent.munmap map env.strtoull, SysEvent.close env.open_dev])
          else if env.pthread_create.1 ≠ 0 then
            (-1, threads, [SysEvent.close env.open_size, SysEvent.handler_open dev,
              SysEvent.handler_close dev, SysEvent.munmap map env.strtoull,
              SysEvent.close env.open_dev])
          else
            (0, threads ++ [{ thread_id := env.pthread_create.2, dev_name := thread_dev_name }],
              [SysEvent.close env.open_size, SysEvent.handler_open dev])

/-- Embedding of `cancel_thread(thread)`: the effects it has. -/
def cancel_thread (env : SysEnv) (thread : Nat) : List SysEvent :=
  if env.pthread_cancel thread ≠ 0 then [SysEvent.pthread_cancel thread]
  else [SysEvent.pthread_cancel thread, SysEvent.pthread_join thread]

/-- The `darray_foreach` loop of `remove_device`, started with the counter at `i`: the
value of `i` and the entry at which the loop breaks, `none` when `found` stays false. -/
def remove_device_loop (dev_name : List Char) : List tcmu_thread → Nat → Option (Nat × tcmu_thread)
  | [], _ => none
  | thread :: rest, i =>
    if strncmp thread.dev_name dev_name (strnlen thread.dev_name 16) ≠ 0 then
      remove_device_loop dev_name rest (i + 1)
    else some (i, thread)

/-- Embedding of `remove_device(dev_name, cfgstring)`: the live-device table after the
call and the effects of the call. -/
def remove_device (env : SysEnv) (threads : List tcmu_thread) (dev_name : List Char)
    (_cfgstring : List Char) : List tcmu_thread × List SysEvent :=
  match remove_device_loop dev_name threads 0 with
  | none => (threads, [])
  | some (i, thread) => (darray_remove threads i, cancel_thread env thread.thread_id)

/-! ## Notions used to state the properties of the dispatcher -/

/-- Number of slots the iov loop of `handle_one_command` rewrites: `iov_cnt`, and no
more than the `INT_MAX + 1` values a non-negative `int` index takes. -/
def iov_bound (r : tcmu_req) : Nat := min r.iov_cnt (2 ^ 31)

/-- The `iov` array of a request after the slots `i ≤ j < iov_bound` were turned from
offsets into addresses, the other slots being as before. -/
def iov_fixed_from (mb i : Nat) (r : tcmu_req) : Nat → iovec := fun j =>
  if i ≤ j ∧ j < iov_bound r then
    { iov_base := (mb + (r.iov j).iov_base) % 2 ^ 64, iov_len := (r.iov j).iov_len }
  else r.iov j

/-- The `iov` array of a request in which every slot `j < iov_bound` holds the address
`mb +` the offset it held (a 64-bit sum), with the same length, the other slots being
as before. -/
def iov_fixed (mb : Nat) (r : tcmu_req) : Nat → iovec := fun j =>
  if j < iov_bound r then
    { iov_base := (mb + (r.iov j).iov_base) % 2 ^ 64, iov_len := (r.iov j).iov_len }
  else r.iov j

/-- The effects a call added to the trace: what follows the trace of `w` in `w2`. -/
def new_events (w w2 : World σ) : List Event := w2.trace.drop w.trace.length

/-- Address of the ring entry at offset `t`: `(void *) mb + mb->cmdr_off + t`. -/
def ent_at (dev : tcmu_device σ) (w : World σ) (t : Nat) : Nat :=
  dev.map + w.mb.cmdr_off + t

/-- Length found in the header of the entry at ring offset `t`. -/
def len_at (dev : tcmu_device σ) (w : World σ) (t : Nat) : Nat :=
  tcmu_hdr_get_len (w.ents (ent_at dev w t)).hdr

/-- Offset of the entry that follows the one at offset `t`, as the dispatcher advances. -/
def ring_next (dev : tcmu_device σ) (w : World σ) (t : Nat) : Nat :=
  next_tail t (len_at dev w t) w.mb.cmdr_size

/-- Walking the ring of `w` from offset `t` to `cmd_head`: the offsets of the entries
met, in order, at most `n` of them. -/
def ring_walk (dev : tcmu_device σ) (w : World σ) : Nat → Nat → List Nat
  | 0, _ => []
  | n + 1, t => if t = w.mb.cmd_head then [] else t :: ring_walk dev w n (ring_next dev w t)

/-- The value stored, for the events that are stores into `cmd_tail`. -/
def Event.tail_stored : Event → Option Nat
  | Event.store_cmd_tail v => some v
  | _ => none

/-- The event stores into a member of the response of the entry at address `a`. -/
def Event.writes_rsp (a : Nat) : Event → Prop
  | Event.store_scsi_status ent _ => ent = a
  | Event.store_sense ent _ _ => ent = a
  | _ => False

/-- The event concerns the entry at address `a`: a store into it or a handler call
for it. -/
def Event.touches (a : Nat) : Event → Prop
  | Event.store_iov_base ent _ _ => ent = a
  | Event.cmd_submit ent _ _ _ => ent = a
  | Event.store_scsi_status ent _ => ent = a
  | Event.store_sense ent _ _ => ent = a
  | _ => False

/-- The value `handle_one_command` returns for the entry at `ent` in the world `w`: what
the handler answers when called with the CDB address and the rewritten `iov` array. -/
def submit_ret (dev : tcmu_device σ) (w : World σ) (ent : Nat) : Int :=
  (dev.handler.cmd_submit w.hm_private dev.totcmu_device_info
    ((dev.map + (w.ents ent).req.cdb_off) % 2 ^ 64) (iov_fixed dev.map (w.ents ent).req)).1

/-- The handler state after the call `submit_ret` describes. -/
def submit_private (dev : tcmu_device σ) (w : World σ) (ent : Nat) : σ :=
  (dev.handler.cmd_submit w.hm_private dev.totcmu_device_info
    ((dev.map + (w.ents ent).req.cdb_off) % 2 ^ 64) (iov_fixed dev.map (w.ents ent).req)).2

/-- The request words after the stores of the failure branch: the status, then the five
bytes of the fixed sense data. -/
def failure_req (r : tcmu_req) : tcmu_req :=
  ((((({ r with cdb_off := set_byte r.cdb_off 0 CHECK_CONDITION } : tcmu_req).set_sense_byte
    0 0x70).set_sense_byte 2 0x5).set_sense_byte 7 0xa).set_sense_byte 12 0x20).set_sense_byte
      13 0x0

/-- The request words of the entry at `ent` after the iov loop of `handle_one_command`. -/
def rewritten_req (dev : tcmu_device σ) (w : World σ) (ent : Nat) : tcmu_req :=
  { (w.ents ent).req with iov := iov_fixed dev.map (w.ents ent).req }

/-- The entry at `ent` once the dispatcher has handled it. -/
def entry_after (dev : tcmu_device σ) (w : World σ) (ent : Nat) : tcmu_cmd_entry :=
  if tcmu_hdr_get_op (w.ents ent).hdr = TCMU_OP_CMD then
    { hdr := (w.ents ent).hdr
      req :=
        if submit_ret dev w ent ≠ 0 then
          { rewritten_req dev w ent with
            cdb_off := set_byte (rewritten_req dev w ent).cdb_off 0 NO_SENSE }
        else failure_req (rewritten_req dev w ent) }
  else w.ents ent

/-- The effects of handling the entry at `ent`, in order. -/
def entry_events (dev : tcmu_device σ) (w : World σ) (ent : Nat) : List Event :=
  if tcmu_hdr_get_op (w.ents ent).hdr = TCMU_OP_CMD then
    (List.range (iov_bound (w.ents ent).req)).map
        (fun j => Event.store_iov_base ent j
          ((dev.map + ((w.ents ent).req.iov j).iov_base) % 2 ^ 64)) ++
      [Event.cmd_submit ent ((dev.map + (w.ents ent).req.cdb_off) % 2 ^ 64)
        (iov_fixed dev.map (w.ents ent).req) (submit_ret dev w ent)] ++
      (if submit_ret dev w ent ≠ 0 then [Event.store_scsi_status ent NO_SENSE]
       else [Event.store_scsi_status ent CHECK_CONDITION, Event.store_sense ent 0 0x70,
        Event.store_sense ent 2 0x5, Event.store_sense ent 7 0xa, Event.store_sense ent 12 0x20,
        Event.store_sense ent 13 0x0])
  else []

/-- The effects of one loop iteration: those of handling the entry, then the store
into `cmd_tail`. -/
def body_events (dev : tcmu_device σ) (s : DrainState σ) : List Event :=
  entry_events dev s.w s.ent ++
    [Event.store_cmd_tail
      (next_tail s.w.mb.cmd_tail (tcmu_hdr_get_len (s.w.ents s.ent).hdr) s.w.mb.cmdr_size)]

/-- The effects of `k` loop iterations started in `s`. -/
def drain_events (dev : tcmu_device σ) : Nat → DrainState σ → List Event
  | 0, _ => []
  | k + 1, s => body_events dev s ++ drain_events dev k (drain_body dev s)

/-- The loop state in which `handle_device_events` enters its loop. -/
def drain_start (dev : tcmu_device σ) (w : World σ) : DrainState σ :=
  { w := w, ent := dev.map + w.mb.cmdr_off + w.mb.cmd_tail, did_some_work := 0 }

/-- The loop state `s` belongs to a drain of the ring of `w` and stands at offset `t`:
the mailbox fields other than `cmd_tail` and all the entry headers are those of `w`. -/
def at_offset (dev : tcmu_device σ) (w : World σ) (s : DrainState σ) (t : Nat) : Prop :=
  s.w.mb.cmdr_off = w.mb.cmdr_off ∧ s.w.mb.cmdr_size = w.mb.cmdr_size ∧
  s.w.mb.cmd_head = w.mb.cmd_head ∧ (∀ a, (s.w.ents a).hdr = (w.ents a).hdr) ∧
  s.w.mb.cmd_tail = t ∧ s.ent = ent_at dev w t

/-! ## Example rings -/

/-- A non-command entry of length `len`. -/
def ex_pad (len : Nat) : tcmu_cmd_entry :=
  { hdr := { op := 2, len := len }
    req := { cdb_off := 0, iov_cnt := 0, iov := fun _ => { iov_base := 0, iov_len := 0 } } }

/-- A command entry of length `len`. -/
def ex_cmd (len cdb_off iov_cnt : Nat) (iov : Nat → iovec) : tcmu_cmd_entry :=
  { hdr := { op := 1, len := len }
    req := { cdb_off := cdb_off, iov_cnt := iov_cnt, iov := iov } }

/-- A handler that fails the command whose CDB lies at `0x10000 + 0x400` and answers
`-1` to every other command. -/
def ex_handler : tcmu_handler Unit :=
  { name := "example".toList, subtype := "file".toList, «open» := fun _ => 0
    cmd_submit := fun s _ cdb _ => (if cdb = 0x10000 + 0x400 then 0 else -1, s) }

/-- A device mapped at `0x10000` with notify-fd 5. -/
def ex_dev : tcmu_device Unit :=
  { name := "uio14".toList, cfgstring := "file/path=/tmp/x".toList, fd := 5, map := 0x10000,
    map_len := 0x10000, handler := ex_handler }

/-- A ring of 1024 bytes holding, from `cmd_tail = 0`: a PAD of length 128, a command of
length 64 with one iov slot, and a command of length 128 with two iov slots;
`cmd_head = 320`. -/
def ex_world : World Unit :=
  { mb := { cmdr_off := 128, cmdr_size := 1024, cmd_head := 320, cmd_tail := 0 }
    ents := fun a =>
      if a = 0x10000 + 128 + 0 then ex_pad 128
      else if a = 0x10000 + 128 + 128 then
        ex_cmd 64 0x300 1 (fun _ => { iov_base := 0x200, iov_len := 96 })
      else if a = 0x10000 + 128 + 192 then
        ex_cmd 128 0x400 2 (fun i => { iov_base := 0x800 + 0x100 * i, iov_len := 512 })
      else ex_pad 0
    hm_private := ()
    trace := [] }

/-- The world after `handle_device_events` has drained `ex_world`. -/
def ex_after : World Unit := ((handle_device_events ex_dev 3 ex_world).getD (0, ex_world)).2

/-- A ring of `2^32 - 64` bytes with `cmd_tail = 0xFFFFFF00` and `cmd_head = 64`: the
entry at `cmd_tail` has length `0x100`, every other entry has the length of the ring. -/
def wrap_world : World Unit :=
  { mb := { cmdr_off := 128, cmdr_size := 0xFFFFFFC0, cmd_head := 64, cmd_tail := 0xFFFFFF00 }
    ents := fun a => if a = 0x10000 + 128 + 0xFFFFFF00 then ex_pad 0x100 else ex_pad 0xFFFFFFC0
    hm_private := ()
    trace := [] }

/-- A ring of 1024 bytes holding at `cmd_tail = 0` one command of length 64 with one iov
slot, whose `iov_base` holds the offset `2^64 - 1`; `cmd_head = 64`. -/
def far_iov_world : World Unit :=
  { mb := { cmdr_off := 128, cmdr_size := 1024, cmd_head := 64, cmd_tail := 0 }
    ents := fun a =>
      if a = 0x10000 + 128 + 0 then
        ex_cmd 64 0x300 1 (fun _ => { iov_base := 2 ^ 64 - 1, iov_len := 96 })
      else ex_pad 0
    hm_private := ()
    trace := [] }

/-! ## Notions used to state the properties of the lookup and of the lifecycle -/

/-- The substring of `s` before its first `/` (all of `s` when it holds no `/`). -/
def before_first_slash (s : List Char) : List Char := s.takeWhile (fun c => c ≠ '/')

/-- The first token of `s` for the delimiter `/`: what follows the leading `/` characters
of `s`, up to the next `/`; all of `s` when nothing follows the leading `/` characters. -/
def first_token (s : List Char) : List Char :=
  if s.dropWhile (fun c => c = '/') = [] then s
  else (s.dropWhile (fun c => c = '/')).takeWhile (fun c => c ≠ '/')

/-- An environment in which every call of the lifecycle operations succeeds: the device
opens as fd 3, the size attribute as fd 4 and reads as 65536, the mapping is placed at
`0x10000`, and the new thread gets the id 7. -/
def ex_env : SysEnv :=
  { calloc_ok := true, open_dev := 3, open_size := 4, read_size := 6, strtoull := 65536,
    mmap := some 0x10000, pthread_create := (0, 7), pthread_cancel := fun _ => 0,
    pthread_join := fun _ => 0 }

/-! # Properties -/

/-! ## Bytes of a word -/

theorem set_byte_eq (x k v : Nat) :
    set_byte x k v = x % 256 ^ k + 256 ^ k * (256 * (x / 256 ^ k / 256) + v % 256) := by
  unfold set_byte get_byte
  have hx := Nat.div_add_mod x (256 ^ k)
  have hq := Nat.div_add_mod (x / 256 ^ k) 256
  generalize 256 ^ k = c at *
  generalize x / c = q at *
  generalize x % c = r at *
  generalize q / 256 = q2 at *
  generalize q % 256 = b at *
  generalize v % 256 = v2 at *
  subst hq
  subst hx
  have e : c * (256 * q2 + b) + r - b * c = r + c * (256 * q2) := by
    apply Nat.sub_eq_of_eq_add
    ring
  rw [e]
  ring

theorem get_set_byte_same (x k v : Nat) : get_byte (set_byte x k v) k = v % 256 := by
  rw [set_byte_eq]
  unfold get_byte
  have hpos : 0 < 256 ^ k := by positivity
  rw [Nat.add_mul_div_left _ _ hpos, Nat.div_eq_of_lt (Nat.mod_lt _ hpos)]
  omega

theorem get_set_byte_lt (x k j v : Nat) (h : j < k) :
    get_byte (set_byte x k v) j = get_byte x j := by
  obtain ⟨d, rfl⟩ : ∃ d, k = j + 1 + d := ⟨k - (j + 1), by omega⟩
  have hpos : 0 < 256 ^ j := by positivity
  have hc : (256 : Nat) ^ (j + 1 + d) = 256 ^ j * (256 * 256 ^ d) := by
    rw [pow_add, pow_add, pow_one, Nat.mul_assoc]
  have hx := Nat.mod_add_div x (256 ^ (j + 1 + d))
  rw [set_byte_eq]
  unfold get_byte
  conv_rhs => rw [← hx]
  rw [hc]
  have a1 : ∀ y z : Nat,
      (y + 256 ^ j * (256 * 256 ^ d) * z) / 256 ^ j % 256 = y / 256 ^ j % 256 := by
    intro y z
    have : 256 ^ j * (256 * 256 ^ d) * z = 256 ^ j * (256 * (256 ^ d * z)) := by ring
    rw [this, Nat.add_mul_div_left _ _ hpos, Nat.add_mul_mod_self_left]
  rw [a1, a1]

/-! ## The iov loop and `handle_one_command` -/

theorem iov_fixed_from_ge (mb i : Nat) (r : tcmu_req) (h : iov_bound r ≤ i) :
    iov_fixed_from mb i r = r.iov := by
  funext j
  simp only [iov_fixed_from]
  rw [if_neg]
  omega

theorem iov_fixed_from_zero (mb : Nat) (r : tcmu_req) : iov_fixed_from mb 0 r = iov_fixed mb r := by
  funext j
  simp [iov_fixed_from, iov_fixed]

theorem iov_fixed_from_step (mb i : Nat) (r : tcmu_req) (h : i < iov_bound r) :
    iov_fixed_from mb (i + 1)
      { cdb_off := r.cdb_off, iov_cnt := r.iov_cnt,
        iov := Function.update r.iov i
          { iov_base := (mb + (r.iov i).iov_base) % 2 ^ 64, iov_len := (r.iov i).iov_len } } =
    iov_fixed_from mb i r := by
  have hb : iov_bound
      { cdb_off := r.cdb_off, iov_cnt := r.iov_cnt,
        iov := Function.update r.iov i
          { iov_base := (mb + (r.iov i).iov_base) % 2 ^ 64, iov_len := (r.iov i).iov_len } } =
      iov_bound r := rfl
  funext j
  simp only [iov_fixed_from, Function.update_apply, hb]
  by_cases hj : j = i
  · subst hj
    simp [h]
  · by_cases hj2 : i + 1 ≤ j ∧ j < iov_bound r
    · have : i ≤ j ∧ j < iov_bound r := ⟨by omega, hj2.2⟩
      simp [hj, hj2, this]
    · have : ¬ (i ≤ j ∧ j < iov_bound r) := by
        intro h3; apply hj2; exact ⟨by omega, h3.2⟩
      simp [hj, hj2, this]

theorem iov_loop_eq (mb ent : Nat) : ∀ (fuel i : Nat) (w : World σ), i ≤ INT_MAX →
    iov_bound (w.ents ent).req - i ≤ fuel →
    iov_loop mb ent fuel i w =
      { w with
        ents := Function.update w.ents ent
          { w.ents ent with
            req := { (w.ents ent).req with iov := iov_fixed_from mb i (w.ents ent).req } }
        trace := w.trace ++ (List.range' i (iov_bound (w.ents ent).req - i)).map
          (fun j => Event.store_iov_base ent j
            ((mb + ((w.ents ent).req.iov j).iov_base) % 2 ^ 64)) } := by
  intro fuel
  induction fuel with
  | zero =>
    intro i w _ h
    have h0 : iov_bound (w.ents ent).req - i = 0 := by omega
    have hfix := iov_fixed_from_ge mb i (w.ents ent).req (by omega)
    simp [iov_loop, h0, hfix]
  | succ n ih =>
    intro i w hi h
    unfold iov_loop
    by_cases hlt : i < (w.ents ent).req.iov_cnt
    · rw [if_pos hlt]
      have hib : i < iov_bound (w.ents ent).req := by
        unfold iov_bound INT_MAX at *
        omega
      have hc : iov_bound (w.ents ent).req - i =
          (iov_bound (w.ents ent).req - (i + 1)) + 1 := by omega
      have key := iov_fixed_from_step mb i (w.ents ent).req hib
      have hmap : List.map (fun j => Event.store_iov_base ent j
            ((mb + (Function.update (w.ents ent).req.iov i
              { iov_base := (mb + ((w.ents ent).req.iov i).iov_base) % 2 ^ 64,
                iov_len := ((w.ents ent).req.iov i).iov_len } j).iov_base) % 2 ^ 64))
            (List.range' (i + 1) (iov_bound (w.ents ent).req - (i + 1))) =
          List.map (fun j => Event.store_iov_base ent j
              ((mb + ((w.ents ent).req.iov j).iov_base) % 2 ^ 64))
            (List.range' (i + 1) (iov_bound (w.ents ent).req - (i + 1))) := by
        apply List.map_congr_left
        intro j hj
        simp only [List.mem_range'_1] at hj
        have : j ≠ i := by omega
        simp [Function.update_apply, this]
      by_cases hmax : i = INT_MAX
      · rw [if_pos hmax]
        have hb1 : iov_bound (w.ents ent).req - (i + 1) = 0 := by
          unfold iov_bound INT_MAX at *
          omega
        have hge := iov_fixed_from_ge mb (i + 1)
          { cdb_off := (w.ents ent).req.cdb_off, iov_cnt := (w.ents ent).req.iov_cnt,
            iov := Function.update (w.ents ent).req.iov i
              { iov_base := (mb + ((w.ents ent).req.iov i).iov_base) % 2 ^ 64,
                iov_len := ((w.ents ent).req.iov i).iov_len } }
          (by
            show iov_bound (w.ents ent).req ≤ i + 1
            omega)
        rw [hge] at key
        rw [hc, hb1, List.range'_succ]
        simp only [World.store_iov_base, List.range'_zero, List.map_cons, List.map_nil, ← key]
      · rw [if_neg hmax, ih]
        · have hb2 : iov_bound
              { cdb_off := (w.ents ent).req.cdb_off, iov_cnt := (w.ents ent).req.iov_cnt,
                iov := Function.update (w.ents ent).req.iov i
                  { iov_base := (mb + ((w.ents ent).req.iov i).iov_base) % 2 ^ 64,
                    iov_len := ((w.ents ent).req.iov i).iov_len } } =
              iov_bound (w.ents ent).req := rfl
          rw [hc, List.range'_succ]
          simp only [World.store_iov_base, Function.update_same, Function.update_idem,
            List.map_cons, List.append_assoc, List.singleton_append, key, hb2, hmap]
        · unfold INT_MAX at *
          omega
        · simp only [World.store_iov_base, Function.update_same]
          show iov_bound (w.ents ent).req - (i + 1) ≤ n
          omega
    · rw [if_neg hlt]
      have hb : iov_bound (w.ents ent).req ≤ i := by
        unfold iov_bound
        omega
      have h0 : iov_bound (w.ents ent).req - i = 0 := by omega
      have hfix := iov_fixed_from_ge mb i (w.ents ent).req hb
      simp [h0, hfix]

theorem iov_bound_le (r : tcmu_req) : iov_bound r ≤ r.iov_cnt := by
  unfold iov_bound
  omega

/-- The stores of the iov loop of `handle_one_command` on the entry at `ent`. -/
theorem handle_one_command_eq (dev : tcmu_device σ) (mb : Nat) (w : World σ) (ent : Nat) :
    handle_one_command dev mb w ent =
      ((dev.handler.cmd_submit w.hm_private dev.totcmu_device_info
          ((mb + (w.ents ent).req.cdb_off) % 2 ^ 64) (iov_fixed mb (w.ents ent).req)).1,
        { mb := w.mb
          ents := Function.update w.ents ent
            { w.ents ent with
              req := { (w.ents ent).req with iov := iov_fixed mb (w.ents ent).req } }
          hm_private := (dev.handler.cmd_submit w.hm_private dev.totcmu_device_info
            ((mb + (w.ents ent).req.cdb_off) % 2 ^ 64) (iov_fixed mb (w.ents ent).req)).2
          trace := w.trace ++ ((List.range (iov_bound (w.ents ent).req)).map
              (fun j => Event.store_iov_base ent j
                ((mb + ((w.ents ent).req.iov j).iov_base) % 2 ^ 64)) ++
            [Event.cmd_submit ent ((mb + (w.ents ent).req.cdb_off) % 2 ^ 64)
              (iov_fixed mb (w.ents ent).req)
              (dev.handler.cmd_submit w.hm_private dev.totcmu_device_info
                ((mb + (w.ents ent).req.cdb_off) % 2 ^ 64)
                (iov_fixed mb (w.ents ent).req)).1]) }) := by
  unfold handle_one_command
  rw [iov_loop_eq mb ent _ 0 w (Nat.zero_le _) (by have := iov_bound_le (w.ents ent).req; omega)]
  simp [iov_fixed_from_zero, List.range_eq_range']

/-! ## One loop iteration -/

theorem store_failure_eq (w : World σ) (ent : Nat) :
    w.store_failure ent =
      { w with
        ents := Function.update w.ents ent
          { w.ents ent with req := failure_req (w.ents ent).req }
        trace := w.trace ++ [Event.store_scsi_status ent CHECK_CONDITION,
          Event.store_sense ent 0 0x70, Event.store_sense ent 2 0x5, Event.store_sense ent 7 0xa,
          Event.store_sense ent 12 0x20, Event.store_sense ent 13 0x0] } := by
  simp [World.store_failure, World.store_scsi_status, World.store_sense, failure_req]

theorem handle_entry_eq (dev : tcmu_device σ) (w : World σ) (ent : Nat) :
    handle_entry dev w ent =
      { mb := w.mb
        ents := Function.update w.ents ent (entry_after dev w ent)
        hm_private :=
          if tcmu_hdr_get_op (w.ents ent).hdr = TCMU_OP_CMD then submit_private dev w ent
          else w.hm_private
        trace := w.trace ++ entry_events dev w ent } := by
  unfold handle_entry entry_after entry_events
  by_cases hop : tcmu_hdr_get_op (w.ents ent).hdr = TCMU_OP_CMD
  · simp only [if_pos hop]
    rw [handle_one_command_eq]
    by_cases hr : submit_ret dev w ent ≠ 0
    · have hr2 : (dev.handler.cmd_submit w.hm_private dev.totcmu_device_info
          ((dev.map + (w.ents ent).req.cdb_off) % 2 ^ 64)
          (iov_fixed dev.map (w.ents ent).req)).1 ≠ 0 := hr
      simp only [if_pos hr, if_pos hr2]
      simp [World.store_scsi_status, submit_ret, submit_private, rewritten_req]
    · have hr2 : ¬ (dev.handler.cmd_submit w.hm_private dev.totcmu_device_info
          ((dev.map + (w.ents ent).req.cdb_off) % 2 ^ 64)
          (iov_fixed dev.map (w.ents ent).req)).1 ≠ 0 := hr
      simp only [if_neg hr, if_neg hr2]
      rw [store_failure_eq]
      simp [submit_ret, submit_private, rewritten_req]
  · simp [if_neg hop]

theorem entry_after_hdr (dev : tcmu_device σ) (w : World σ) (ent : Nat) :
    (entry_after dev w ent).hdr = (w.ents ent).hdr := by
  unfold entry_after
  split <;> rfl

theorem drain_body_eq (dev : tcmu_device σ) (s : DrainState σ) :
    drain_body dev s =
      { w :=
          { mb := { s.w.mb with
              cmd_tail := next_tail s.w.mb.cmd_tail (tcmu_hdr_get_len (s.w.ents s.ent).hdr)
                s.w.mb.cmdr_size }
            ents := Function.update s.w.ents s.ent (entry_after dev s.w s.ent)
            hm_private :=
              if tcmu_hdr_get_op (s.w.ents s.ent).hdr = TCMU_OP_CMD then
                submit_private dev s.w s.ent
              else s.w.hm_private
            trace := s.w.trace ++ body_events dev s }
        ent := dev.map + s.w.mb.cmdr_off +
          next_tail s.w.mb.cmd_tail (tcmu_hdr_get_len (s.w.ents s.ent).hdr) s.w.mb.cmdr_size
        did_some_work := 1 } := by
  have hhdr := entry_after_hdr dev s.w s.ent
  unfold drain_body
  rw [handle_entry_eq]
  simp [World.store_cmd_tail, body_events, hhdr]

/-! ## Iterating the loop body -/

theorem ent_at_inj (dev : tcmu_device σ) (w : World σ) (t u : Nat) :
    ent_at dev w t = ent_at dev w u ↔ t = u := by
  unfold ent_at
  omega

theorem at_offset_start (dev : tcmu_device σ) (w : World σ) :
    at_offset dev w (drain_start dev w) w.mb.cmd_tail := by
  simp [at_offset, drain_start, ent_at]

theorem at_offset_step (dev : tcmu_device σ) (w : World σ) (s : DrainState σ) (t : Nat)
    (h : at_offset dev w s t) : at_offset dev w (drain_body dev s) (ring_next dev w t) := by
  obtain ⟨hoff, hsize, hhead, hhdr, htail, hent⟩ := h
  rw [drain_body_eq]
  refine ⟨hoff, hsize, hhead, ?_, ?_, ?_⟩
  · intro a
    by_cases ha : a = s.ent
    · subst ha
      simp [entry_after_hdr, hhdr]
    · simp [Function.update_noteq ha, hhdr]
  · simp [ring_next, len_at, htail, hent, hsize, hhdr]
  · simp [ring_next, len_at, htail, hent, hsize, hhdr, ent_at, hoff]

theorem at_offset_iter (dev : tcmu_device σ) (w : World σ) (k : Nat) :
    ∀ (s : DrainState σ) (t : Nat), at_offset dev w s t →
      at_offset dev w ((drain_body dev)^[k] s) ((ring_next dev w)^[k] t) := by
  induction k with
  | zero => intro s t h; simpa using h
  | succ n ih =>
    intro s t h
    rw [Function.iterate_succ_apply, Function.iterate_succ_apply]
    exact ih _ _ (at_offset_step dev w s t h)

theorem at_offset_pending (dev : tcmu_device σ) (w : World σ) (s : DrainState σ) (t : Nat)
    (h : at_offset dev w s t) :
    s.ent ≠ dev.map + s.w.mb.cmdr_off + s.w.mb.cmd_head ↔ t ≠ w.mb.cmd_head := by
  obtain ⟨hoff, _, hhead, _, _, hent⟩ := h
  rw [hent, hoff, hhead]
  unfold ent_at
  omega

theorem drain_loop_some (dev : tcmu_device σ) :
    ∀ (fuel : Nat) (s s2 : DrainState σ), drain_loop dev fuel s = some s2 →
      ∃ k, k ≤ fuel ∧ s2 = (drain_body dev)^[k] s ∧
        s2.ent = dev.map + s2.w.mb.cmdr_off + s2.w.mb.cmd_head ∧
        (∀ j, j < k → ((drain_body dev)^[j] s).ent ≠
          dev.map + ((drain_body dev)^[j] s).w.mb.cmdr_off +
            ((drain_body dev)^[j] s).w.mb.cmd_head) ∧
        (0 < k → s.w.mb.cmdr_size ≠ 0) := by
  intro fuel
  induction fuel with
  | zero =>
    intro s s2 h
    unfold drain_loop at h
    by_cases hp : s.ent ≠ dev.map + s.w.mb.cmdr_off + s.w.mb.cmd_head
    · simp [hp] at h
    · rw [if_neg hp] at h
      have hs : s = s2 := by simpa using h
      subst hs
      refine ⟨0, le_refl _, rfl, ?_, ?_, ?_⟩
      · simpa using hp
      · intro j hj; omega
      · intro h0; omega
  | succ n ih =>
    intro s s2 h
    unfold drain_loop at h
    by_cases hp : s.ent ≠ dev.map + s.w.mb.cmdr_off + s.w.mb.cmd_head
    · rw [if_pos hp] at h
      by_cases hz : s.w.mb.cmdr_size = 0
      · simp [hz] at h
      · rw [if_neg hz] at h
        obtain ⟨k, hk, heq, hdone, hpend, _⟩ := ih _ _ h
        refine ⟨k + 1, by omega, ?_, hdone, ?_, fun _ => hz⟩
        · rw [Function.iterate_succ_apply]; exact heq
        · intro j hj
          cases j with
          | zero => simpa using hp
          | succ j =>
            rw [Function.iterate_succ_apply]
            exact hpend j (by omega)
    · rw [if_neg hp] at h
      have hs : s = s2 := by simpa using h
      subst hs
      refine ⟨0, Nat.zero_le _, rfl, ?_, ?_, ?_⟩
      · simpa using hp
      · intro j hj; omega
      · intro h0; omega

theorem iterate_first_hit_inj {α : Type} (f : α → α) (t h : α) (k : Nat)
    (hk : f^[k] t = h) (hmin : ∀ j, j < k → f^[j] t ≠ h) :
    ∀ i j, i < j → j < k → f^[i] t ≠ f^[j] t := by
  intro i j hij hjk heq
  apply hmin (k - j + i) (by omega)
  rw [Function.iterate_add_apply, heq, ← Function.iterate_add_apply]
  have : k - j + j = k := by omega
  rw [this]
  exact hk

theorem iterate_join {α : Type} (f : α → α) (x : α) (j i : Nat) :
    f^[i] (f (f^[j] x)) = f^[i + (j + 1)] x := by
  rw [Function.iterate_add_apply, Function.iterate_succ_apply']

theorem iterate_split {α : Type} (f : α → α) (x : α) (j k : Nat) (h : j < k) :
    f^[k] x = f^[k - (j + 1)] (f (f^[j] x)) := by
  rw [iterate_join]
  congr 1
  omega

theorem iter_did_some_work (dev : tcmu_device σ) (s : DrainState σ) (k : Nat) :
    ((drain_body dev)^[k] s).did_some_work = if k = 0 then s.did_some_work else 1 := by
  cases k with
  | zero => simp
  | succ n =>
    rw [Function.iterate_succ_apply', drain_body_eq]
    simp

theorem iter_trace (dev : tcmu_device σ) (k : Nat) :
    ∀ s : DrainState σ,
      ((drain_body dev)^[k] s).w.trace = s.w.trace ++ drain_events dev k s := by
  induction k with
  | zero => intro s; simp [drain_events]
  | succ n ih =>
    intro s
    have hb : (drain_body dev s).w.trace = s.w.trace ++ body_events dev s := by
      rw [drain_body_eq]
    rw [Function.iterate_succ_apply, ih, hb]
    simp [drain_events]

theorem mem_drain_events (dev : tcmu_device σ) (ev : Event) (k : Nat) :
    ∀ s : DrainState σ, ev ∈ drain_events dev k s →
      ∃ j, j < k ∧ ev ∈ body_events dev ((drain_body dev)^[j] s) := by
  induction k with
  | zero => intro s h; simp [drain_events] at h
  | succ n ih =>
    intro s h
    simp only [drain_events, List.mem_append] at h
    rcases h with h | h
    · exact ⟨0, by omega, by simpa using h⟩
    · obtain ⟨j, hj, hm⟩ := ih _ h
      exact ⟨j + 1, by omega, by rw [Function.iterate_succ_apply]; exact hm⟩

theorem iter_ents_frame (dev : tcmu_device σ) (w : World σ) (s : DrainState σ) (t : Nat)
    (hs : at_offset dev w s t) (a : Nat) :
    ∀ n, (∀ i, i < n → a ≠ ent_at dev w ((ring_next dev w)^[i] t)) →
      ((drain_body dev)^[n] s).w.ents a = s.w.ents a := by
  intro n
  induction n with
  | zero => intro _; rfl
  | succ n ih =>
    intro h
    rw [Function.iterate_succ_apply', drain_body_eq]
    have hn := at_offset_iter dev w n s t hs
    have hne : a ≠ ((drain_body dev)^[n] s).ent := by
      rw [hn.2.2.2.2.2]; exact h n (by omega)
    simp only [Function.update_noteq hne]
    exact ih (fun i hi => h i (by omega))


/-! ## The whole drain -/

/-- What a returning call of `handle_device_events` amounts to: `k` iterations of the
loop body, where `k` is the first index at which the walk from `cmd_tail` meets
`cmd_head`, followed by the poke when `k` is not zero. -/
theorem hde_some (dev : tcmu_device σ) (fuel : Nat) (w : World σ) (r : Int) (w2 : World σ)
    (h : handle_device_events dev fuel w = some (r, w2)) :
    r = 0 ∧ ∃ k, k ≤ fuel ∧ (ring_next dev w)^[k] w.mb.cmd_tail = w.mb.cmd_head ∧
      (∀ j, j < k → (ring_next dev w)^[j] w.mb.cmd_tail ≠ w.mb.cmd_head) ∧
      (0 < k → w.mb.cmdr_size ≠ 0) ∧
      w2.mb = ((drain_body dev)^[k] (drain_start dev w)).w.mb ∧
      w2.ents = ((drain_body dev)^[k] (drain_start dev w)).w.ents ∧
      new_events w w2 = drain_events dev k (drain_start dev w) ++
        (if k = 0 then [] else [Event.write dev.fd 0xabcdef12 4]) := by
  unfold handle_device_events at h
  change (match drain_loop dev fuel (drain_start dev w) with
    | none => none
    | some s => if s.did_some_work ≠ 0 then some ((0 : Int), poke_kernel dev.fd s.w)
        else some (0, s.w)) = some (r, w2) at h
  cases hl : drain_loop dev fuel (drain_start dev w) with
  | none => rw [hl] at h; simp at h
  | some s =>
    rw [hl] at h
    obtain ⟨k, hk, heq, hdone, hpend, hz⟩ := drain_loop_some dev fuel _ _ hl
    have hstart := at_offset_start dev w
    have hat := at_offset_iter dev w k _ _ hstart
    have hdid := iter_did_some_work dev (drain_start dev w) k
    have htr := iter_trace dev k (drain_start dev w)
    rw [← heq] at hat hdid htr
    have hhit : (ring_next dev w)^[k] w.mb.cmd_tail = w.mb.cmd_head := by
      have := (at_offset_pending dev w s _ hat).not.mp (by simpa using hdone)
      simpa using this
    have hmin : ∀ j, j < k → (ring_next dev w)^[j] w.mb.cmd_tail ≠ w.mb.cmd_head := by
      intro j hj
      exact (at_offset_pending dev w _ _ (at_offset_iter dev w j _ _ hstart)).mp (hpend j hj)
    have hz2 : 0 < k → w.mb.cmdr_size ≠ 0 := hz
    have hst : (drain_start dev w).w.trace = w.trace := rfl
    have hd0 : (drain_start dev w).did_some_work = 0 := rfl
    by_cases hk0 : k = 0
    · have hd : s.did_some_work = 0 := by rw [hdid, if_pos hk0, hd0]
      simp only [hd, ne_eq, not_true_eq_false, if_false, Option.some.injEq, Prod.mk.injEq] at h
      obtain ⟨hr, hw⟩ := h
      refine ⟨hr.symm, k, hk, hhit, hmin, hz2, ?_, ?_, ?_⟩
      · rw [← heq, hw]
      · rw [← heq, hw]
      · rw [← hw]
        simp [new_events, htr, hst, hk0]
    · have hd : s.did_some_work = 1 := by rw [hdid, if_neg hk0]
      simp only [hd, ne_eq, one_ne_zero, not_false_eq_true, if_true, Option.some.injEq,
        Prod.mk.injEq] at h
      obtain ⟨hr, hw⟩ := h
      refine ⟨hr.symm, k, hk, hhit, hmin, hz2, ?_, ?_, ?_⟩
      · rw [← heq, ← hw]; rfl
      · rw [← heq, ← hw]; rfl
      · rw [← hw]
        simp [new_events, poke_kernel, htr, hst, hk0]

theorem ring_walk_eq (dev : tcmu_device σ) (w : World σ) :
    ∀ (k n t : Nat), k ≤ n → (ring_next dev w)^[k] t = w.mb.cmd_head →
      (∀ j, j < k → (ring_next dev w)^[j] t ≠ w.mb.cmd_head) →
      ring_walk dev w n t = (List.range k).map (fun j => (ring_next dev w)^[j] t) := by
  intro k
  induction k with
  | zero =>
    intro n t _ hk _
    have : t = w.mb.cmd_head := by simpa using hk
    cases n <;> simp [ring_walk, this]
  | succ k ih =>
    intro n t hle hk hmin
    cases n with
    | zero => omega
    | succ n =>
      have h0 : t ≠ w.mb.cmd_head := by simpa using hmin 0 (by omega)
      have := ih n (ring_next dev w t) (by omega)
        (by rw [← Function.iterate_succ_apply]; exact hk)
        (fun j hj => by rw [← Function.iterate_succ_apply]; exact hmin (j + 1) (by omega))
      simp only [ring_walk, if_neg h0, this, List.range_succ_eq_map, List.map_cons, List.map_map]
      simp [Function.comp_def]


/-! ## The events of an iteration and of a drain -/

theorem mem_entry_events (dev : tcmu_device σ) (w : World σ) (e : Nat) (ev : Event)
    (h : ev ∈ entry_events dev w e) :
    tcmu_hdr_get_op (w.ents e).hdr = TCMU_OP_CMD ∧
    ((∃ i, i < iov_bound (w.ents e).req ∧
        ev = Event.store_iov_base e i ((dev.map + ((w.ents e).req.iov i).iov_base) % 2 ^ 64)) ∨
      ev = Event.cmd_submit e ((dev.map + (w.ents e).req.cdb_off) % 2 ^ 64)
        (iov_fixed dev.map (w.ents e).req) (submit_ret dev w e) ∨
      (submit_ret dev w e ≠ 0 ∧ ev = Event.store_scsi_status e NO_SENSE) ∨
      (submit_ret dev w e = 0 ∧
        (ev = Event.store_scsi_status e CHECK_CONDITION ∨ ev = Event.store_sense e 0 0x70 ∨
          ev = Event.store_sense e 2 0x5 ∨ ev = Event.store_sense e 7 0xa ∨
          ev = Event.store_sense e 12 0x20 ∨ ev = Event.store_sense e 13 0x0))) := by
  unfold entry_events at h
  by_cases hop : tcmu_hdr_get_op (w.ents e).hdr = TCMU_OP_CMD
  · refine ⟨hop, ?_⟩
    rw [if_pos hop] at h
    simp only [List.mem_append, List.mem_map, List.mem_range, List.mem_singleton] at h
    rcases h with (⟨i, hi, hev⟩ | hev) | hev
    · exact Or.inl ⟨i, hi, hev.symm⟩
    · exact Or.inr (Or.inl hev)
    · by_cases hr : submit_ret dev w e ≠ 0
      · rw [if_pos hr] at hev
        exact Or.inr (Or.inr (Or.inl ⟨hr, by simpa using hev⟩))
      · rw [if_neg hr] at hev
        refine Or.inr (Or.inr (Or.inr ⟨by simpa using hr, ?_⟩))
        simpa using hev
  · rw [if_neg hop] at h
    simp at h

theorem touches_of_mem_entry_events (dev : tcmu_device σ) (w : World σ) (e : Nat) (ev : Event)
    (h : ev ∈ entry_events dev w e) : ev.touches e := by
  obtain ⟨_, h⟩ := mem_entry_events dev w e ev h
  rcases h with ⟨i, _, rfl⟩ | rfl | ⟨_, rfl⟩ | ⟨_, rfl | rfl | rfl | rfl | rfl | rfl⟩ <;>
    simp [Event.touches]

theorem touches_inj (ev : Event) (a b : Nat) (ha : ev.touches a) (hb : ev.touches b) : a = b := by
  cases ev <;> simp [Event.touches] at ha hb <;> omega

/-- An event of a drain that concerns an entry comes from the iteration that handled
the entry. -/
theorem mem_drain_events_touches (dev : tcmu_device σ) (w : World σ) (k : Nat) (ev : Event)
    (a : Nat) (hev : ev ∈ drain_events dev k (drain_start dev w)) (ht : ev.touches a) :
    ∃ j, j < k ∧ a = ent_at dev w ((ring_next dev w)^[j] w.mb.cmd_tail) ∧
      ev ∈ entry_events dev ((drain_body dev)^[j] (drain_start dev w)).w a := by
  obtain ⟨j, hj, hm⟩ := mem_drain_events dev ev k _ hev
  have hat := at_offset_iter dev w j _ _ (at_offset_start dev w)
  simp only [body_events, List.mem_append, List.mem_singleton] at hm
  rcases hm with hm | hm
  · have h2 := touches_of_mem_entry_events dev _ _ ev hm
    have hae := touches_inj ev _ _ ht h2
    refine ⟨j, hj, ?_, ?_⟩
    · rw [hae, hat.2.2.2.2.2]
    · rw [hae]; exact hm
  · subst hm
    simp [Event.touches] at ht

/-- The entry met at step `j` of a returning drain is as the drain found it until its
iteration, and as its iteration left it from then on. -/
theorem visited_entry (dev : tcmu_device σ) (w : World σ) (k : Nat)
    (hk : (ring_next dev w)^[k] w.mb.cmd_tail = w.mb.cmd_head)
    (hmin : ∀ j, j < k → (ring_next dev w)^[j] w.mb.cmd_tail ≠ w.mb.cmd_head)
    (j : Nat) (hj : j < k) :
    ((drain_body dev)^[j] (drain_start dev w)).w.ents
        (ent_at dev w ((ring_next dev w)^[j] w.mb.cmd_tail)) =
      w.ents (ent_at dev w ((ring_next dev w)^[j] w.mb.cmd_tail)) ∧
    ((drain_body dev)^[k] (drain_start dev w)).w.ents
        (ent_at dev w ((ring_next dev w)^[j] w.mb.cmd_tail)) =
      entry_after dev ((drain_body dev)^[j] (drain_start dev w)).w
        (ent_at dev w ((ring_next dev w)^[j] w.mb.cmd_tail)) := by
  have hinj := iterate_first_hit_inj (ring_next dev w) w.mb.cmd_tail w.mb.cmd_head k hk hmin
  have hstart := at_offset_start dev w
  constructor
  · have := iter_ents_frame dev w _ _ hstart
      (ent_at dev w ((ring_next dev w)^[j] w.mb.cmd_tail)) j
      (fun i hi heq => hinj i j hi hj ((ent_at_inj dev w _ _).mp heq).symm)
    rw [this]; rfl
  · have hatj := at_offset_iter dev w j _ _ hstart
    have hat1 := at_offset_step dev w _ _ hatj
    have hsplit : (drain_body dev)^[k] (drain_start dev w) =
        (drain_body dev)^[k - (j + 1)]
          (drain_body dev ((drain_body dev)^[j] (drain_start dev w))) := by
      exact iterate_split (drain_body dev) _ j k hj
    rw [hsplit, iter_ents_frame dev w _ _ hat1 _ (k - (j + 1))]
    · rw [drain_body_eq, hatj.2.2.2.2.2]
      simp
    · intro i hi heq
      have h3 := (ent_at_inj dev w _ _).mp heq
      rw [iterate_join (ring_next dev w) _ j i] at h3
      exact hinj j (i + (j + 1)) (by omega) (by omega) h3

/-- Entries the walk does not meet are left as they were. -/
theorem unvisited_entry (dev : tcmu_device σ) (w : World σ) (k a : Nat)
    (h : ∀ j, j < k → a ≠ ent_at dev w ((ring_next dev w)^[j] w.mb.cmd_tail)) :
    ((drain_body dev)^[k] (drain_start dev w)).w.ents a = w.ents a := by
  rw [iter_ents_frame dev w _ _ (at_offset_start dev w) a k h]
  rfl

theorem tail_stored_entry_events (dev : tcmu_device σ) (w : World σ) (e : Nat) :
    (entry_events dev w e).filterMap Event.tail_stored = [] := by
  rw [List.filterMap_eq_nil_iff]
  intro ev hev
  obtain ⟨_, h⟩ := mem_entry_events dev w e ev hev
  rcases h with ⟨i, _, rfl⟩ | rfl | ⟨_, rfl⟩ | ⟨_, rfl | rfl | rfl | rfl | rfl | rfl⟩ <;> rfl

theorem tail_stored_drain_events (dev : tcmu_device σ) (w : World σ) (k : Nat) :
    ∀ (s : DrainState σ) (t : Nat), at_offset dev w s t →
      (drain_events dev k s).filterMap Event.tail_stored =
        ((List.range k).map (fun j => (ring_next dev w)^[j] t)).map (ring_next dev w) := by
  induction k with
  | zero => intro s t _; simp [drain_events]
  | succ k ih =>
    intro s t hs
    have hstep := ih _ _ (at_offset_step dev w s t hs)
    have hv : next_tail s.w.mb.cmd_tail (tcmu_hdr_get_len (s.w.ents s.ent).hdr)
        s.w.mb.cmdr_size = ring_next dev w t := by
      rw [ring_next, len_at, hs.2.2.2.2.2, hs.2.2.2.1, hs.2.2.2.2.1, hs.2.1]
    simp only [drain_events, body_events, List.filterMap_append, tail_stored_entry_events, hstep,
      hv, List.range_succ_eq_map, List.map_cons, List.map_map, Function.iterate_zero, id_eq]
    have hcomp : ((fun j => (ring_next dev w)^[j] t) ∘ Nat.succ) =
        (fun j => (ring_next dev w)^[j] (ring_next dev w t)) := by
      funext j
      simp [Function.iterate_succ_apply]
    simp [Event.tail_stored, Function.comp_def, Function.iterate_succ_apply]


theorem mem_drain_events_of (dev : tcmu_device σ) (ev : Event) (k : Nat) :
    ∀ (s : DrainState σ) (j : Nat), j < k → ev ∈ body_events dev ((drain_body dev)^[j] s) →
      ev ∈ drain_events dev k s := by
  induction k with
  | zero => intro s j hj; omega
  | succ n ih =>
    intro s j hj hm
    simp only [drain_events, List.mem_append]
    cases j with
    | zero => exact Or.inl (by simpa using hm)
    | succ j =>
      rw [Function.iterate_succ_apply] at hm
      exact Or.inr (ih _ j (by omega) hm)

/-- In a returning drain, the events that concern the entry met at step `j` are those
of the iteration that handled it. -/
theorem touching_events_of_visit (dev : tcmu_device σ) (w : World σ) (k : Nat)
    (hk : (ring_next dev w)^[k] w.mb.cmd_tail = w.mb.cmd_head)
    (hmin : ∀ j, j < k → (ring_next dev w)^[j] w.mb.cmd_tail ≠ w.mb.cmd_head)
    (j : Nat) (hj : j < k) (ev : Event)
    (hev : ev ∈ drain_events dev k (drain_start dev w))
    (ht : ev.touches (ent_at dev w ((ring_next dev w)^[j] w.mb.cmd_tail))) :
    ev ∈ entry_events dev ((drain_body dev)^[j] (drain_start dev w)).w
      (ent_at dev w ((ring_next dev w)^[j] w.mb.cmd_tail)) := by
  have hinj := iterate_first_hit_inj (ring_next dev w) w.mb.cmd_tail w.mb.cmd_head k hk hmin
  obtain ⟨i, hi, hai, hm⟩ := mem_drain_events_touches dev w k ev _ hev ht
  have hti := (ent_at_inj dev w _ _).mp hai
  have hij : i = j := by
    rcases Nat.lt_trichotomy i j with hlt | heq | hgt
    · exact absurd hti.symm (hinj i j hlt hj)
    · exact heq
    · exact absurd hti (hinj j i hgt hi)
  subst hij
  exact hm

theorem mem_new_events_touches (dev : tcmu_device σ) (w w2 : World σ) (k : Nat) (ev : Event)
    (a : Nat)
    (hnew : new_events w w2 = drain_events dev k (drain_start dev w) ++
      (if k = 0 then [] else [Event.write dev.fd 0xabcdef12 4]))
    (hev : ev ∈ new_events w w2) (ht : ev.touches a) :
    ev ∈ drain_events dev k (drain_start dev w) := by
  rw [hnew, List.mem_append] at hev
  rcases hev with hev | hev
  · exact hev
  · by_cases hk0 : k = 0
    · simp [hk0] at hev
    · simp only [if_neg hk0, List.mem_singleton] at hev
      subst hev
      simp [Event.touches] at ht

/-- What a handler call recorded in a returning drain tells: the entry it was made for
was met at some step `j`, is a command, the value returned is the one the dispatcher
branched on, the entry is at the end as its iteration left it, and it was at the start
of the drain as its iteration found it. -/
theorem submit_event_visit (dev : tcmu_device σ) (fuel : Nat) (w : World σ) (r : Int)
    (w2 : World σ) (h : handle_device_events dev fuel w = some (r, w2))
    (ent cdb : Nat) (iov : Nat → iovec) (ret : Int)
    (hev : Event.cmd_submit ent cdb iov ret ∈ new_events w w2) :
    ∃ k j, j < k ∧
      new_events w w2 = drain_events dev k (drain_start dev w) ++
        (if k = 0 then [] else [Event.write dev.fd 0xabcdef12 4]) ∧
      tcmu_hdr_get_op (((drain_body dev)^[j] (drain_start dev w)).w.ents ent).hdr = TCMU_OP_CMD ∧
      ret = submit_ret dev ((drain_body dev)^[j] (drain_start dev w)).w ent ∧
      w2.ents ent = entry_after dev ((drain_body dev)^[j] (drain_start dev w)).w ent ∧
      ((drain_body dev)^[j] (drain_start dev w)).w.ents ent = w.ents ent ∧
      (∀ ev, ev ∈ new_events w w2 → ev.touches ent →
        ev ∈ entry_events dev ((drain_body dev)^[j] (drain_start dev w)).w ent) ∧
      (∀ ev, ev ∈ entry_events dev ((drain_body dev)^[j] (drain_start dev w)).w ent →
        ev ∈ new_events w w2) := by
  obtain ⟨_, k, _, hk, hmin, _, _, hents, hnew⟩ := hde_some dev fuel w r w2 h
  have hev2 := mem_new_events_touches dev w w2 k _ ent hnew hev (by simp [Event.touches])
  obtain ⟨j, hj, haj, hm⟩ := mem_drain_events_touches dev w k _ ent hev2 (by simp [Event.touches])
  obtain ⟨hop, hcases⟩ := mem_entry_events dev _ _ _ hm
  have hvis := visited_entry dev w k hk hmin j hj
  rw [← haj] at hvis
  refine ⟨k, j, hj, hnew, hop, ?_, ?_, hvis.1, ?_, ?_⟩
  · rcases hcases with ⟨i, _, hc⟩ | hc | ⟨_, hc⟩ | ⟨_, hc | hc | hc | hc | hc | hc⟩ <;>
      first
        | (simp only [Event.cmd_submit.injEq] at hc; exact hc.2.2.2)
        | exact absurd hc (by simp)
  · rw [hents]; exact hvis.2
  · intro ev hev3 ht
    have hev4 := mem_new_events_touches dev w w2 k ev ent hnew hev3 ht
    have := touching_events_of_visit dev w k hk hmin j hj ev hev4 (by rw [← haj]; exact ht)
    rw [← haj] at this
    exact this
  · intro ev hev3
    rw [hnew, List.mem_append]
    refine Or.inl (mem_drain_events_of dev ev k _ j hj ?_)
    simp only [body_events, List.mem_append]
    have hat := at_offset_iter dev w j _ _ (at_offset_start dev w)
    rw [hat.2.2.2.2.2, ← haj]
    exact Or.inl hev3

/-- The response read from the request words after the stores of the failure branch:
the five bytes of the fixed sense data, and the status `0x01`. -/
theorem failure_req_rsp (r : tcmu_req) :
    (failure_req r).sense_byte 0 = 0x70 ∧ (failure_req r).sense_byte 2 = 0x05 ∧
    (failure_req r).sense_byte 7 = 0x0a ∧ (failure_req r).sense_byte 12 = 0x20 ∧
    (failure_req r).sense_byte 13 = 0x00 ∧ get_byte (failure_req r).cdb_off 0 = 0x01 := by
  refine ⟨?_, ?_, ?_, ?_, ?_, ?_⟩ <;>
    simp [failure_req, tcmu_req.set_sense_byte, tcmu_req.sense_byte, get_set_byte_same,
      get_set_byte_lt, CHECK_CONDITION]

/-- C2, as the code behaves: for every handler call of a returning drain that reported
failure (returned 0) for the entry at `ent`, after the drain the response of that entry
holds `sense_buffer[0] = 0x70`, `[2] = 0x05`, `[7] = 0x0a`, `[12] = 0x20`,
`[13] = 0x00`, as the claim says, but `scsi_status = 0x01` and not the `0x02` of the
claim: the drain stores the constant `CHECK_CONDITION` into the status, every status
it stores for that entry is this constant, and the constant is `0x01`. -/
theorem C2_failure_response (dev : tcmu_device σ) (fuel : Nat) (w : World σ) (r : Int)
    (w2 : World σ) (h : handle_device_events dev fuel w = some (r, w2))
    (ent cdb : Nat) (iov : Nat → iovec)
    (hev : Event.cmd_submit ent cdb iov 0 ∈ new_events w w2) :
    (w2.ents ent).rsp.sense_buffer 0 = 0x70 ∧ (w2.ents ent).rsp.sense_buffer 2 = 0x05 ∧
    (w2.ents ent).rsp.sense_buffer 7 = 0x0a ∧ (w2.ents ent).rsp.sense_buffer 12 = 0x20 ∧
    (w2.ents ent).rsp.sense_buffer 13 = 0x00 ∧
    (w2.ents ent).rsp.scsi_status = 0x01 ∧ (w2.ents ent).rsp.scsi_status ≠ 0x02 ∧
    CHECK_CONDITION = 0x01 ∧
    Event.store_scsi_status ent CHECK_CONDITION ∈ new_events w w2 ∧
    (∀ v, Event.store_scsi_status ent v ∈ new_events w w2 → v = 0x01) := by
  obtain ⟨k, j, _, _, hop, hret, hfin, _, honly, hall⟩ :=
    submit_event_visit dev fuel w r w2 h ent cdb iov 0 hev
  have hret2 : ¬ submit_ret dev ((drain_body dev)^[j] (drain_start dev w)).w ent ≠ 0 := by
    rw [← hret]; simp
  have hreq : (w2.ents ent).req =
      failure_req (rewritten_req dev ((drain_body dev)^[j] (drain_start dev w)).w ent) := by
    rw [hfin]; simp only [entry_after, hop, if_true, if_neg hret2]
  have hrsp := failure_req_rsp
    (rewritten_req dev ((drain_body dev)^[j] (drain_start dev w)).w ent)
  rw [← hreq] at hrsp
  have hstatus : (w2.ents ent).rsp.scsi_status = 0x01 := hrsp.2.2.2.2.2
  refine ⟨hrsp.1, hrsp.2.1, hrsp.2.2.1, hrsp.2.2.2.1, hrsp.2.2.2.2.1, hstatus, ?_, rfl, ?_, ?_⟩
  · rw [hstatus]; decide
  · apply hall
    simp [entry_events, hop, hret2]
  · intro v hv
    have hm := honly _ hv (by simp [Event.touches])
    obtain ⟨_, hcases⟩ := mem_entry_events dev _ _ _ hm
    rw [← hret] at hcases
    rcases hcases with ⟨i, _, hc⟩ | hc | ⟨hr, hc⟩ | ⟨hr, hc | hc | hc | hc | hc | hc⟩ <;>
      first
        | exact absurd rfl hr
        | (simp only [Event.store_scsi_status.injEq] at hc
           rw [hc.2]
           rfl)
        | exact absurd hc (by simp)

/-- C2 on `ex_world`: the handler fails the command at offset 192; after the drain its
response holds the fixed sense data and the status `0x01`, not `0x02`. -/
theorem C2_failure_response_witness :
    (ex_after.ents (0x10000 + 128 + 192)).rsp.sense_buffer 0 = 0x70 ∧
    (ex_after.ents (0x10000 + 128 + 192)).rsp.sense_buffer 2 = 0x05 ∧
    (ex_after.ents (0x10000 + 128 + 192)).rsp.sense_buffer 7 = 0x0a ∧
    (ex_after.ents (0x10000 + 128 + 192)).rsp.sense_buffer 12 = 0x20 ∧
    (ex_after.ents (0x10000 + 128 + 192)).rsp.sense_buffer 13 = 0x00 ∧
    (ex_after.ents (0x10000 + 128 + 192)).rsp.scsi_status = 0x01 ∧
    (ex_after.ents (0x10000 + 128 + 192)).rsp.scsi_status ≠ 0x02 ∧
    CHECK_CONDITION = 0x01 ∧
    Event.store_scsi_status (0x10000 + 128 + 192) CHECK_CONDITION ∈
      new_events ex_world ex_after ∧
    (∀ v, Event.store_scsi_status (0x10000 + 128 + 192) v ∈ new_events ex_world ex_after →
      v = 0x01) :=
  C2_failure_response ex_dev 3 ex_world 0 ex_after rfl (0x10000 + 128 + 192) (0x10000 + 0x400)
    ((handle_one_command ex_dev 0x10000 ex_world (0x10000 + 128 + 192)).2.ents
      (0x10000 + 128 + 192)).req.iov
    (List.getElem?_mem (show (new_events ex_world ex_after)[7]? = some _ from rfl))

theorem new_events_append (w w2 : World σ) (evs : List Event) (h : w2.trace = w.trace ++ evs) :
    new_events w w2 = evs := by
  simp [new_events, h]

/-- C5, as stated, fails: in the first iteration on `wrap_world` the old `cmd_tail`
`0xFFFFFF00` and the entry length `0x100` are 32-bit values and `cmdr_size` is positive,
the loop body stores 0 into `cmd_tail`, and `(old cmd_tail + length) mod cmdr_size` over
the integers is 64. -/
theorem C5_counterexample :
    wrap_world.mb.cmd_tail < 2 ^ 32 ∧
    tcmu_hdr_get_len (wrap_world.ents (drain_start ex_dev wrap_world).ent).hdr < 2 ^ 32 ∧
    0 < wrap_world.mb.cmdr_size ∧
    (drain_body ex_dev (drain_start ex_dev wrap_world)).w.mb.cmd_tail = 0 ∧
    (wrap_world.mb.cmd_tail +
      tcmu_hdr_get_len (wrap_world.ents (drain_start ex_dev wrap_world).ent).hdr) %
        wrap_world.mb.cmdr_size = 64 := by
  refine ⟨by decide, by decide, by decide, by decide, by decide⟩

/-- C5, amended: with `cmdr_size > 0`, a loop iteration stores into `cmd_tail` the value
`((old cmd_tail + entry length) mod 2^32) mod cmdr_size`, which is
`(old cmd_tail + entry length) mod cmdr_size` whenever the sum is below `2^32`; the
value stored lies in `[0, cmdr_size)`, and it is the only store into `cmd_tail` of the
iteration.  In a returning drain the stores into `cmd_tail` are, one per entry met on
the walk from `cmd_tail` to `cmd_head` and in that order, the offsets that follow these
entries, each of them below `cmdr_size`. -/
theorem C5_tail_advance (dev : tcmu_device σ) (s : DrainState σ)
    (hsize : 0 < s.w.mb.cmdr_size) (fuel : Nat) (w : World σ) (r : Int) (w2 : World σ)
    (h : handle_device_events dev fuel w = some (r, w2)) :
    (drain_body dev s).w.mb.cmd_tail =
      ((s.w.mb.cmd_tail + tcmu_hdr_get_len (s.w.ents s.ent).hdr) % 2 ^ 32) % s.w.mb.cmdr_size ∧
    (s.w.mb.cmd_tail + tcmu_hdr_get_len (s.w.ents s.ent).hdr < 2 ^ 32 →
      (drain_body dev s).w.mb.cmd_tail =
        (s.w.mb.cmd_tail + tcmu_hdr_get_len (s.w.ents s.ent).hdr) % s.w.mb.cmdr_size) ∧
    (drain_body dev s).w.mb.cmd_tail < s.w.mb.cmdr_size ∧
    (new_events s.w (drain_body dev s).w).filterMap Event.tail_stored =
      [(drain_body dev s).w.mb.cmd_tail] ∧
    (new_events w w2).filterMap Event.tail_stored =
      (ring_walk dev w fuel w.mb.cmd_tail).map (ring_next dev w) ∧
    (∀ v, v ∈ (new_events w w2).filterMap Event.tail_stored → v < w.mb.cmdr_size) := by
  have htail : (drain_body dev s).w.mb.cmd_tail =
      ((s.w.mb.cmd_tail + tcmu_hdr_get_len (s.w.ents s.ent).hdr) % 2 ^ 32) %
        s.w.mb.cmdr_size := by
    rw [drain_body_eq]; rfl
  have htrace : (drain_body dev s).w.trace = s.w.trace ++ body_events dev s := by
    rw [drain_body_eq]
  obtain ⟨_, k, hkf, hk, hmin, hz, _, _, hnew⟩ := hde_some dev fuel w r w2 h
  have hstores : (new_events w w2).filterMap Event.tail_stored =
      (ring_walk dev w fuel w.mb.cmd_tail).map (ring_next dev w) := by
    rw [hnew, List.filterMap_append,
      tail_stored_drain_events dev w k _ _ (at_offset_start dev w),
      ring_walk_eq dev w k fuel _ hkf hk hmin]
    by_cases h0 : k = 0
    · simp [h0]
    · simp [h0, Event.tail_stored]
  refine ⟨htail, ?_, ?_, ?_, hstores, ?_⟩
  · intro hlt
    rw [htail, Nat.mod_eq_of_lt hlt]
  · rw [htail]
    exact Nat.mod_lt _ hsize
  · rw [new_events_append _ _ _ htrace, htail]
    simp [body_events, List.filterMap_append, tail_stored_entry_events, Event.tail_stored,
      next_tail]
  · intro v hv
    rw [hstores, ring_walk_eq dev w k fuel _ hkf hk hmin] at hv
    simp only [List.mem_map, List.mem_range] at hv
    obtain ⟨t, ⟨j, hj, _⟩, rfl⟩ := hv
    have hpos : 0 < w.mb.cmdr_size := Nat.pos_of_ne_zero (hz (by omega))
    exact Nat.mod_lt _ hpos

/-- C5, amended, on the first iteration and on the whole drain of `ex_world`. -/
theorem C5_tail_advance_witness :
    (drain_body ex_dev (drain_start ex_dev ex_world)).w.mb.cmd_tail = ((0 + 128) % 2 ^ 32) % 1024 ∧
    (new_events ex_world ex_after).filterMap Event.tail_stored = [128, 192, 320] :=
  have h := C5_tail_advance ex_dev (drain_start ex_dev ex_world) (by decide) 3 ex_world 0
    ex_after rfl
  ⟨h.1, h.2.2.2.2.1⟩

/-- The iov loop of an entry that holds its iov array rewrites `iov_cnt` slots: the
index stays far below `INT_MAX`. -/
theorem iov_bound_of_fit (r : tcmu_req) (len : Nat) (hfit : 24 + 16 * r.iov_cnt ≤ len)
    (hlen : len < 2 ^ 32) : iov_bound r = r.iov_cnt := by
  unfold iov_bound
  have : (2 : Nat) ^ 32 = 4294967296 := by norm_num
  have : (2 : Nat) ^ 31 = 2147483648 := by norm_num
  omega

/-- C6, as stated, fails: the one iov slot of the command of `far_iov_world`, an entry
of length 64 that holds its iov array, stores the offset `2^64 - 1`; after
`handle_one_command` with the mailbox base `0x10000` the slot holds `0xffff`, which
is what is stored and what the handler is passed, and not the sum `0x10000 + (2^64 - 1)`
of the mailbox base and the offset: the sum is a 64-bit pointer addition. -/
theorem C6_counterexample :
    tcmu_hdr_get_op (far_iov_world.ents (0x10000 + 128)).hdr = TCMU_OP_CMD ∧
    (far_iov_world.ents (0x10000 + 128)).req.iov_cnt = 1 ∧
    24 + 16 * (far_iov_world.ents (0x10000 + 128)).req.iov_cnt ≤
      tcmu_hdr_get_len (far_iov_world.ents (0x10000 + 128)).hdr ∧
    ((far_iov_world.ents (0x10000 + 128)).req.iov 0).iov_base = 2 ^ 64 - 1 ∧
    (((handle_one_command ex_dev 0x10000 far_iov_world (0x10000 + 128)).2.ents
      (0x10000 + 128)).req.iov 0).iov_base = 0xffff ∧
    (((handle_one_command ex_dev 0x10000 far_iov_world (0x10000 + 128)).2.ents
      (0x10000 + 128)).req.iov 0).iov_base ≠
        0x10000 + ((far_iov_world.ents (0x10000 + 128)).req.iov 0).iov_base ∧
    new_events far_iov_world (handle_one_command ex_dev 0x10000 far_iov_world (0x10000 + 128)).2 =
      [Event.store_iov_base (0x10000 + 128) 0 0xffff,
        Event.cmd_submit (0x10000 + 128) (0x10000 + 0x300)
          ((handle_one_command ex_dev 0x10000 far_iov_world (0x10000 + 128)).2.ents
            (0x10000 + 128)).req.iov (-1)] := by
  refine ⟨by decide, by decide, by decide, by decide, by decide, by decide, rfl⟩

/-- C6, amended: on an entry at `ent` that holds its iov array (the `iov_cnt` slots end
within the entry's length, a 32-bit value), `handle_one_command` does, in this order,
one store into `iov[i].iov_base` for each `i` in `[0, iov_cnt)`, of the 64-bit sum of
`mb` and the offset the slot held, and one call of the handler's `cmd_submit` with
`cdb =` the 64-bit sum of `mb` and `req.cdb_off` and the entry's `iov` array, whose
value it returns.  In the array passed, which is the one the entry holds afterwards,
every slot below `iov_cnt` has for `iov_base` the sum modulo `2^64` of `mb` and the
offset originally stored there, which is `mb +` that offset when the sum is below
`2^64`, and its `iov_len` unchanged, and the slots from `iov_cnt` on are unchanged; the
header, `cdb_off` and `iov_cnt` of the entry, the entries whose bytes do not overlap
those of the entry, and the mailbox fields are not modified. -/
theorem C6_iov_rewrite (dev : tcmu_device σ) (mb : Nat) (w : World σ) (ent : Nat)
    (hfit : 24 + 16 * (w.ents ent).req.iov_cnt ≤ tcmu_hdr_get_len (w.ents ent).hdr)
    (hlen : tcmu_hdr_get_len (w.ents ent).hdr < 2 ^ 32) :
    new_events w (handle_one_command dev mb w ent).2 =
      (List.range (w.ents ent).req.iov_cnt).map
          (fun i => Event.store_iov_base ent i
            ((mb + ((w.ents ent).req.iov i).iov_base) % 2 ^ 64)) ++
        [Event.cmd_submit ent ((mb + (w.ents ent).req.cdb_off) % 2 ^ 64)
          (((handle_one_command dev mb w ent).2.ents ent).req.iov)
          (handle_one_command dev mb w ent).1] ∧
    (mb + (w.ents ent).req.cdb_off < 2 ^ 64 →
      Event.cmd_submit ent (mb + (w.ents ent).req.cdb_off)
        (((handle_one_command dev mb w ent).2.ents ent).req.iov)
        (handle_one_command dev mb w ent).1 ∈ new_events w (handle_one_command dev mb w ent).2) ∧
    (∀ i, i < (w.ents ent).req.iov_cnt →
      ((((handle_one_command dev mb w ent).2.ents ent).req.iov i).iov_base =
          (mb + ((w.ents ent).req.iov i).iov_base) % 2 ^ 64 ∧
        (mb + ((w.ents ent).req.iov i).iov_base < 2 ^ 64 →
          (((handle_one_command dev mb w ent).2.ents ent).req.iov i).iov_base =
            mb + ((w.ents ent).req.iov i).iov_base) ∧
        (((handle_one_command dev mb w ent).2.ents ent).req.iov i).iov_len =
          ((w.ents ent).req.iov i).iov_len)) ∧
    (∀ i, (w.ents ent).req.iov_cnt ≤ i →
      ((handle_one_command dev mb w ent).2.ents ent).req.iov i = (w.ents ent).req.iov i) ∧
    (∀ a, (ent + tcmu_hdr_get_len (w.ents ent).hdr ≤ a ∨
        a + tcmu_hdr_get_len (w.ents a).hdr ≤ ent) →
      (handle_one_command dev mb w ent).2.ents a = w.ents a) ∧
    ((handle_one_command dev mb w ent).2.ents ent).hdr = (w.ents ent).hdr ∧
    ((handle_one_command dev mb w ent).2.ents ent).req.cdb_off = (w.ents ent).req.cdb_off ∧
    ((handle_one_command dev mb w ent).2.ents ent).req.iov_cnt = (w.ents ent).req.iov_cnt ∧
    (handle_one_command dev mb w ent).2.mb = w.mb := by
  have hb := iov_bound_of_fit (w.ents ent).req _ hfit hlen
  rw [handle_one_command_eq]
  refine ⟨?_, ?_, ?_, ?_, ?_, ?_, ?_, ?_, ?_⟩
  · simp [new_events, hb]
  · intro hc
    simp only [new_events, List.drop_left, List.mem_append, List.mem_singleton,
      Function.update_same]
    rw [Nat.mod_eq_of_lt hc]
    exact Or.inr rfl
  · intro i hi
    have hi2 : i < iov_bound (w.ents ent).req := by rw [hb]; exact hi
    have hbase : (iov_fixed mb (w.ents ent).req i).iov_base =
        (mb + ((w.ents ent).req.iov i).iov_base) % 2 ^ 64 := by
      simp [iov_fixed, hi2]
    refine ⟨by simp [iov_fixed, hi2], ?_, by simp [iov_fixed, hi2]⟩
    intro hc
    simp only [Function.update_same]
    rw [hbase, Nat.mod_eq_of_lt hc]
  · intro i hi
    have : ¬ i < iov_bound (w.ents ent).req := by rw [hb]; omega
    simp [iov_fixed, this]
  · intro a ha
    have hne : a ≠ ent := by
      rintro rfl
      omega
    simp [Function.update_noteq hne]
  · simp
  · simp
  · simp
  · simp

/-- C6, amended, on the command at offset 192 of `ex_world`, an entry of length 128
with two iov slots: slots 0 and 1 hold `0x10000 +` their offsets, slot 2 is unchanged,
and so is the entry at offset 128, which ends where this one starts. -/
theorem C6_iov_rewrite_witness :
    (((handle_one_command ex_dev 0x10000 ex_world (0x10000 + 128 + 192)).2.ents
        (0x10000 + 128 + 192)).req.iov 0).iov_base = 0x10000 + 0x800 ∧
    (((handle_one_command ex_dev 0x10000 ex_world (0x10000 + 128 + 192)).2.ents
        (0x10000 + 128 + 192)).req.iov 1).iov_base = 0x10000 + 0x900 ∧
    ((handle_one_command ex_dev 0x10000 ex_world (0x10000 + 128 + 192)).2.ents
        (0x10000 + 128 + 192)).req.iov 2 = { iov_base := 0xa00, iov_len := 512 } ∧
    (handle_one_command ex_dev 0x10000 ex_world (0x10000 + 128 + 192)).2.ents
        (0x10000 + 128 + 128) = ex_world.ents (0x10000 + 128 + 128) :=
  have h := C6_iov_rewrite ex_dev 0x10000 ex_world (0x10000 + 128 + 192) (by decide) (by decide)
  ⟨(h.2.2.1 0 (by decide)).2.1 (by decide), (h.2.2.1 1 (by decide)).2.1 (by decide),
    h.2.2.2.1 2 (by decide), h.2.2.2.2.1 (0x10000 + 128 + 128) (Or.inr (by decide))⟩

theorem cstr_nil : cstr [] = [] := rfl

theorem cstr_cons_nul (cs : List Char) : cstr (NUL :: cs) = [] := by
  simp [cstr]

theorem cstr_cons_of_ne (c : Char) (cs : List Char) (h : c ≠ NUL) :
    cstr (c :: cs) = c :: cstr cs := by
  simp [cstr, h]

theorem cstr_nul_free (s : List Char) : ∀ c, c ∈ cstr s → c ≠ NUL := by
  intro c hc
  have := List.mem_takeWhile_imp hc
  simpa using this

theorem toNat_ne_zero_of_ne_nul (c : Char) (h : c ≠ NUL) : (c.toNat : Int) ≠ 0 := by
  intro h0
  apply h
  have h1 : c.toNat = 0 := by exact_mod_cast h0
  have h2 : Char.ofNat c.toNat = c := Char.ofNat_toNat c
  rw [h1] at h2
  exact h2.symm

theorem toNat_sub_ne_zero (a b : Char) (h : a ≠ b) : (a.toNat : Int) - (b.toNat : Int) ≠ 0 := by
  intro h0
  apply h
  have h1 : a.toNat = b.toNat := by omega
  have ha : Char.ofNat a.toNat = a := Char.ofNat_toNat a
  have hb : Char.ofNat b.toNat = b := Char.ofNat_toNat b
  rw [← ha, ← hb, h1]

theorem strcmp_chars_eq_zero : ∀ (x y : List Char), (∀ c, c ∈ x → c ≠ NUL) →
    (∀ c, c ∈ y → c ≠ NUL) → (strcmp_chars x y = 0 ↔ x = y) := by
  intro x
  induction x with
  | nil =>
    intro y _ hy
    cases y with
    | nil => simp [strcmp_chars]
    | cons b bs =>
      have := toNat_ne_zero_of_ne_nul b (hy b (by simp))
      simp [strcmp_chars, this]
  | cons a as ih =>
    intro y hx hy
    cases y with
    | nil =>
      have := toNat_ne_zero_of_ne_nul a (hx a (by simp))
      simp [strcmp_chars, this]
    | cons b bs =>
      by_cases hab : a = b
      · subst hab
        have := ih bs (fun c hc => hx c (by simp [hc])) (fun c hc => hy c (by simp [hc]))
        simp [strcmp_chars, this]
      · have := toNat_sub_ne_zero a b hab
        simp [strcmp_chars, hab, this]

theorem strcmp_eq_zero (a b : List Char) : strcmp a b = 0 ↔ cstr a = cstr b :=
  strcmp_chars_eq_zero _ _ (cstr_nul_free a) (cstr_nul_free b)

theorem find_handler_loop_eq (subtype : List Char) (handlers : List (tcmu_handler σ)) :
    find_handler_loop subtype handlers =
      handlers.find? (fun h => decide (cstr h.subtype = cstr subtype)) := by
  induction handlers with
  | nil => rfl
  | cons h hs ih =>
    by_cases hc : cstr h.subtype = cstr subtype
    · have : strcmp subtype h.subtype = 0 := (strcmp_eq_zero _ _).mpr hc.symm
      simp [find_handler_loop, this, hc]
    · have : ¬ strcmp subtype h.subtype = 0 := fun h0 => hc ((strcmp_eq_zero _ _).mp h0).symm
      simp [find_handler_loop, this, hc, ih]

theorem cstr_drop : ∀ (s : List Char) (n : Nat), n ≤ (cstr s).length →
    cstr (s.drop n) = (cstr s).drop n := by
  intro s
  induction s with
  | nil => intro n _; simp [cstr_nil]
  | cons c cs ih =>
    intro n hn
    cases n with
    | zero => simp
    | succ m =>
      by_cases hc : c = NUL
      · subst hc
        rw [cstr_cons_nul] at hn
        simp at hn
      · rw [cstr_cons_of_ne c cs hc] at hn ⊢
        simp only [List.drop_succ_cons]
        exact ih m (by simpa using hn)

theorem cstr_set_nul : ∀ (s : List Char) (n : Nat), n ≤ (cstr s).length →
    cstr (s.set n NUL) = (cstr s).take n := by
  intro s
  induction s with
  | nil => intro n _; simp [cstr_nil]
  | cons c cs ih =>
    intro n hn
    cases n with
    | zero => simp [cstr_cons_nul]
    | succ m =>
      by_cases hc : c = NUL
      · subst hc
        rw [cstr_cons_nul] at hn
        simp at hn
      · rw [cstr_cons_of_ne c cs hc] at hn ⊢
        simp only [List.set_cons_succ, List.take_succ_cons]
        rw [cstr_cons_of_ne c _ hc, ih m (by simpa using hn)]

theorem drop_length_takeWhile (p : Char → Bool) : ∀ l : List Char,
    l.drop (l.takeWhile p).length = l.dropWhile p := by
  intro l
  induction l with
  | nil => rfl
  | cons c cs ih =>
    by_cases hp : p c = true
    · simp [List.takeWhile_cons, List.dropWhile_cons, hp, ih]
    · simp [List.takeWhile_cons, List.dropWhile_cons, hp]

theorem take_length_takeWhile (p : Char → Bool) : ∀ l : List Char,
    l.take (l.takeWhile p).length = l.takeWhile p := by
  intro l
  induction l with
  | nil => rfl
  | cons c cs ih =>
    by_cases hp : p c = true
    · simp [List.takeWhile_cons, hp, ih]
    · simp [List.takeWhile_cons, hp]

theorem length_takeWhile_add_dropWhile (p : Char → Bool) (l : List Char) :
    (l.takeWhile p).length + (l.dropWhile p).length = l.length := by
  induction l with
  | nil => rfl
  | cons c cs ih =>
    by_cases hp : p c = true
    · simp [List.takeWhile_cons, List.dropWhile_cons, hp]
      omega
    · simp [List.takeWhile_cons, List.dropWhile_cons, hp]

theorem length_takeWhile_le_length (p : Char → Bool) (l : List Char) :
    (l.takeWhile p).length ≤ l.length := by
  have := length_takeWhile_add_dropWhile p l
  omega

/-- The string `find_handler` compares with the subtypes: the one `strtok` returns, or
the whole `cfgstring` when `strtok` returns NULL. -/
theorem strtok_subtype (s : List Char) :
    cstr (match (strtok s ['/']).1 with
      | some p => (strtok s ['/']).2.drop p
      | none => (strtok s ['/']).2) = first_token (cstr s) := by
  have hspn : strspn s ['/'] = ((cstr s).takeWhile (fun c => decide (c = '/'))).length := by
    simp [strspn]
  have hstart : cstr (s.drop (strspn s ['/'])) = (cstr s).dropWhile (fun c => decide (c = '/')) := by
    rw [cstr_drop s _ (by rw [hspn]; exact length_takeWhile_le_length _ _), hspn,
      drop_length_takeWhile]
  have hcspn : strcspn (s.drop (strspn s ['/'])) ['/'] =
      (((cstr s).dropWhile (fun c => decide (c = '/'))).takeWhile
        (fun c => decide (c ≠ '/'))).length := by
    simp [strcspn, hstart]
  unfold strtok first_token
  simp only [hstart, hcspn]
  by_cases hu : (cstr s).dropWhile (fun c => decide (c = '/')) = []
  · simp only [hu, if_true]
  · simp only [if_neg hu]
    have hlen := length_takeWhile_add_dropWhile (fun c => decide (c = '/')) (cstr s)
    have hle : (((cstr s).dropWhile (fun c => decide (c = '/'))).takeWhile
        (fun c => decide (c ≠ '/'))).length ≤
        ((cstr s).dropWhile (fun c => decide (c = '/'))).length :=
      length_takeWhile_le_length _ _
    have hstop : strspn s ['/'] + (((cstr s).dropWhile (fun c => decide (c = '/'))).takeWhile
        (fun c => decide (c ≠ '/'))).length ≤ (cstr s).length := by
      rw [hspn]; omega
    have hrest : cstr (s.drop (strspn s ['/'] +
        (((cstr s).dropWhile (fun c => decide (c = '/'))).takeWhile
          (fun c => decide (c ≠ '/'))).length)) =
        ((cstr s).dropWhile (fun c => decide (c = '/'))).dropWhile
          (fun c => decide (c ≠ '/')) := by
      rw [cstr_drop s _ hstop, ← List.drop_drop, hspn, drop_length_takeWhile,
        drop_length_takeWhile]
    rw [hrest]
    by_cases hend : ((cstr s).dropWhile (fun c => decide (c = '/'))).dropWhile
        (fun c => decide (c ≠ '/')) = []
    · simp only [hend, if_true]
      rw [hstart]
      have := List.takeWhile_append_dropWhile (fun c => decide (c ≠ '/'))
        ((cstr s).dropWhile (fun c => decide (c = '/')))
      rw [hend, List.append_nil] at this
      exact this.symm
    · simp only [if_neg hend]
      rw [cstr_drop _ _ (by rw [cstr_set_nul s _ hstop, List.length_take]; omega),
        cstr_set_nul s _ hstop, List.drop_take, Nat.add_sub_cancel_left, hspn,
        drop_length_takeWhile, take_length_takeWhile]

/-- C8, as stated, fails for a cfgstring that begins with `/`: for `/file/path=/tmp/x` the
substring before the first `/` is empty and no registered handler has an empty subtype,
yet `find_handler` returns the handler of subtype `file`. -/
theorem C8_counterexample :
    before_first_slash (cstr "/file/path=/tmp/x".toList) = [] ∧
    ([ex_handler].find?
      (fun h => decide (cstr h.subtype =
        before_first_slash (cstr "/file/path=/tmp/x".toList)))).isSome = false ∧
    ((find_handler [ex_handler] "/file/path=/tmp/x".toList).1.map
      (fun h => h.subtype)) = some "file".toList := by
  refine ⟨by decide, by decide, by decide⟩

/-- C8, amended: for every cfgstring and every handler registry, `find_handler` returns
the first handler in registry order whose subtype is equal, character for character, to
the first `/`-delimited token of cfgstring (what follows its leading `/` characters, up
to the next `/`; the whole cfgstring when nothing follows them), and NULL when no
registered subtype equals it.  For a cfgstring that does not begin with `/`, the empty
one included, that token is the substring before the first `/`. -/
theorem C8_find_handler_first_token (handlers : List (tcmu_handler σ)) (cfgstring : List Char) :
    (find_handler handlers cfgstring).1 =
      handlers.find? (fun h => decide (cstr h.subtype = first_token (cstr cfgstring))) ∧
    ((cstr cfgstring).head? ≠ some '/' →
      first_token (cstr cfgstring) = before_first_slash (cstr cfgstring)) := by
  constructor
  · unfold find_handler
    simp only []
    rw [find_handler_loop_eq, strtok_subtype]
  · intro hhead
    unfold first_token before_first_slash
    cases hc : cstr cfgstring with
    | nil => simp
    | cons c cs =>
      have hne : c ≠ '/' := by
        intro h
        apply hhead
        rw [hc, h]
        rfl
      simp [List.dropWhile_cons, hne]

/-- C8, amended, on `file/path=/tmp/x` and on the empty cfgstring. -/
theorem C8_find_handler_first_token_witness :
    ((find_handler [ex_handler] "file/path=/tmp/x".toList).1.map (fun h => h.subtype)) =
      some "file".toList ∧
    first_token (cstr "file/path=/tmp/x".toList) = "file".toList ∧
    first_token (cstr []) = before_first_slash (cstr []) :=
  have h := C8_find_handler_first_token [ex_handler] "file/path=/tmp/x".toList
  have h0 := C8_find_handler_first_token [ex_handler] []
  ⟨by rw [h.1]; decide, by decide, h0.2 (by decide)⟩

/-- After `find_handler`, a cfgstring that does not begin with `/` reads as its substring
before the first `/`: the lookup cuts the string held in the buffer it is given. -/
theorem find_handler_cuts_cfgstring (handlers : List (tcmu_handler σ)) (cfgstring : List Char)
    (hhead : (cstr cfgstring).head? ≠ some '/') :
    cstr (find_handler handlers cfgstring).2 = before_first_slash (cstr cfgstring) := by
  have htake : (cstr cfgstring).takeWhile (fun c => decide (c = '/')) = [] := by
    cases hc : cstr cfgstring with
    | nil => rfl
    | cons c cs =>
      have hne : c ≠ '/' := by
        intro h
        apply hhead
        rw [hc, h]
        rfl
      simp [List.takeWhile_cons, hne]
  have hspn : strspn cfgstring ['/'] = 0 := by
    simp [strspn, htake]
  have hcspn : strcspn cfgstring ['/'] = (before_first_slash (cstr cfgstring)).length := by
    simp [strcspn, before_first_slash]
  have hle : (before_first_slash (cstr cfgstring)).length ≤ (cstr cfgstring).length :=
    length_takeWhile_le_length _ _
  unfold find_handler strtok
  simp only [hspn, List.drop_zero, Nat.zero_add, hcspn]
  by_cases hempty : cstr cfgstring = []
  · simp [hempty, before_first_slash]
  · simp only [if_neg hempty]
    have hrest : cstr (cfgstring.drop (before_first_slash (cstr cfgstring)).length) =
        (cstr cfgstring).dropWhile (fun c => decide (c ≠ '/')) := by
      rw [cstr_drop _ _ hle]
      exact drop_length_takeWhile _ _
    rw [hrest]
    by_cases hend : (cstr cfgstring).dropWhile (fun c => decide (c ≠ '/')) = []
    · simp only [hend, if_true]
      have := List.takeWhile_append_dropWhile (fun c => decide (c ≠ '/')) (cstr cfgstring)
      rw [hend, List.append_nil] at this
      exact this.symm
    · simp only [if_neg hend]
      rw [cstr_set_nul _ _ hle]
      exact take_length_takeWhile _ _

theorem strncmp_eq_zero_iff : ∀ (n : Nat) (a b : List Char), n ≤ (cstr a).length →
    (strncmp a b n = 0 ↔ (cstr b).take n = (cstr a).take n) := by
  intro n
  induction n with
  | zero => intro a b _; simp [strncmp]
  | succ n ih =>
    intro a b hn
    cases a with
    | nil => simp [cstr_nil] at hn
    | cons c as =>
      by_cases hc : c = NUL
      · subst hc
        rw [cstr_cons_nul] at hn
        simp at hn
      · rw [cstr_cons_of_ne c as hc] at hn ⊢
        have hn2 : n ≤ (cstr as).length := by simpa using hn
        cases b with
        | nil =>
          have := toNat_sub_ne_zero c NUL hc
          simp [strncmp, cstr_nil, hc, this]
        | cons d bs =>
          by_cases hd : c = d
          · subst hd
            simp [strncmp, hc, cstr_cons_of_ne c bs hc, ih as bs hn2]
          · have := toNat_sub_ne_zero c d hd
            by_cases hdn : d = NUL
            · subst hdn
              simp [strncmp, hd, this, cstr_cons_nul]
            · have hd2 : ¬ d = c := fun h => hd h.symm
              simp [strncmp, hd, this, cstr_cons_of_ne d bs hdn, hd2]

/-- When the name stored in the first entry of the table, of at most 16 characters, is a
beginning of the name asked for, `remove_device` cancels that entry's worker and
removes that entry, whatever the rest of the table holds. -/
theorem remove_device_first_entry (env : SysEnv) (thread : tcmu_thread)
    (rest : List tcmu_thread) (dev_name cfgstring : List Char)
    (hlen : (cstr thread.dev_name).length ≤ 16)
    (hpre : (cstr dev_name).take (cstr thread.dev_name).length = cstr thread.dev_name) :
    remove_device env (thread :: rest) dev_name cfgstring =
      (rest, cancel_thread env thread.thread_id) := by
  have hn : strnlen thread.dev_name 16 = (cstr thread.dev_name).length := by
    simp [strnlen, hlen]
  have hz : strncmp thread.dev_name dev_name (strnlen thread.dev_name 16) = 0 := by
    rw [hn, strncmp_eq_zero_iff _ _ _ (le_refl _), hpre, List.take_length]
  simp [remove_device, remove_device_loop, hz, darray_remove]

/-- C9 at a failing input: the table holds `uio1` (thread 1) before `uio14` (thread 2);
`remove_device("uio14", _)` cancels and joins thread 1 and removes the entry `uio1`,
leaving `uio14` in the table. -/
theorem C9_remove_device_prefix_match :
    remove_device ex_env [⟨1, "uio1".toList⟩, ⟨2, "uio14".toList⟩] "uio14".toList [] =
      ([⟨2, "uio14".toList⟩], [SysEvent.pthread_cancel 1, SysEvent.pthread_join 1]) := by
  decide

/-- C10 at a failing input: `add_device("uio14", "tcm-user+file/path=/tmp/x")` with the
handler of subtype `file` registered succeeds, and the device record passed to the
handler's `open` holds a `cfgstring` buffer in which the first `/` was overwritten by
NUL, so that the string read there is `file`, not `file/path=/tmp/x`. -/
theorem C10_open_sees_truncated_cfgstring :
    add_device ex_env 16 256 [ex_handler] [] "uio14".toList "tcm-user+file/path=/tmp/x".toList =
      (0, [⟨7, "uio14".toList⟩],
        [SysEvent.close 4,
         SysEvent.handler_open
          { name := "uio14".toList, cfgstring := "file".toList ++ NUL :: "path=/tmp/x".toList,
            fd := 3, map := 0x10000, map_len := 65536 }]) ∧
    cstr ("file".toList ++ NUL :: "path=/tmp/x".toList) = "file".toList ∧
    cstr ("tcm-user+file/path=/tmp/x".toList.drop 9) = "file/path=/tmp/x".toList := by
  refine ⟨by decide, by decide, by decide⟩

end Tcmu
